import Mathlib

/-!
Verification development for the single-threaded incremental recomputation
engine (the `singlethread` module of the `anchors` crate).

The Rust sources are shallowly embedded: the arena of nodes becomes a total
function from indices to node records together with a length; the intrusive
per-height recalc queues and the free list become explicit lists holding node
indices (enqueue prepends, matching the intrusive head insertion); machine
integers become `Nat` with explicit wrap where the source wraps; every code
path that panics becomes an `Except EngineError` error value.  Recursive graph
walks (`set_min_height`, `mark_dirty`, the stabilization loop) take explicit
fuel; running out of fuel is the distinguished error `outOfFuel`, which never
corresponds to any source behavior.
-/

set_option autoImplicit false
set_option maxRecDepth 200000

namespace Anchors

/-- RecalcState from singlethread/graph.rs. -/
inductive RecalcState where
  | needed
  | pending
  | ready
deriving DecidableEq, Repr

/-- Poll from core.rs. -/
inductive Poll where
  | updated
  | unchanged
  | pending
deriving DecidableEq, Repr

/-- ObservedState from singlethread.rs. -/
inductive ObservedState where
  | observed
  | necessary
  | unnecessary
deriving DecidableEq, Repr

/-- Every panic or model-artifact failure of an engine operation. -/
inductive EngineError where
  /-- panic "loop detected in anchors!" in EngineContextMut::request. -/
  | cycle
  /-- panic "too large height error" in GraphGuard::queue_recalc. -/
  | tooLargeHeight
  /-- panic "poll_updated return pending without requesting another anchor". -/
  | pendingWithoutRequest
  /-- panic "attempted to get node that was not previously requested". -/
  | getUnready
  /-- panic in VarAnchor::mark_dirty (a Var never has inputs). -/
  | dirtyOnVar
  /-- an unwrap of a missing node or missing output failed. -/
  | missingNode
  /-- the NonZeroU64 unwrap in Generation::increment failed. -/
  | generationOverflow
  /-- model artifact: recursion fuel exhausted (no source counterpart). -/
  | outOfFuel
deriving DecidableEq, Repr

/-- NodeKey from singlethread/node_key.rs: a raw node pointer (an arena index
in this model) plus the per-graph token. -/
structure NodeKey where
  ptr : Nat
  token : Nat
deriving DecidableEq, Repr

/-- VarShared from singlethread/var.rs: the cell shared between a `Var` setter
and its `VarAnchor` node.  The dirty handle is present or absent; its stored
key is the var node's own key. -/
structure VarShared where
  dirtyHandle : Bool
  val : Int
  valueChanged : Bool

/-- The type-erased computation stored in a node (`Box<dyn GenericAnchor>`),
covering the node kinds the claims exercise.  All output types are `Int`. -/
inductive Comp where
  /-- VarAnchor from singlethread/var.rs: shared cell plus the snapshot taken
  at the last poll. -/
  | varAnchor (shared : VarShared) (val : Int)
  /-- Cutoff from core/cutoff.rs: input anchor key and predicate. -/
  | cutoff (input : NodeKey) (f : Int → Bool)
  /-- Map (1-ary) from core/map.rs: input anchor key, function, cached output,
  and the output_stale flag. -/
  | map1 (input : NodeKey) (f : Int → Int) (output : Option Int)
      (outputStale : Bool)
  /-- Constant from core/constant.rs. -/
  | constant (val : Int) (firstPoll : Bool)

/-- One node of the graph: the bookkeeping record of singlethread/node.rs and
singlethread/node_ptrs.rs.  The intrusive recalc-queue / free-list links
(prev/next) are represented at the Graph level by explicit lists. -/
structure NodeData where
  observed : Bool := false
  visited : Bool := false
  necessaryCount : Nat := 0
  token : Nat := 0
  lastReady : Option Nat := none
  lastUpdate : Option Nat := none
  comp : Option Comp := none
  cleanParent0 : Option Nat := none
  cleanParents : List Nat := []
  recalcState : RecalcState := .needed
  necessaryChildren : List Nat := []
  height : Nat := 0
  handleCount : Nat := 0

instance : Inhabited NodeData := ⟨{}⟩

/-- Graph from singlethread/graph.rs.  `nodes`/`len` model the append-only
arena; `recalcQueues` holds one LIFO list of node indices per height (the
intrusive linked list with its head at the front); `freeList` is the free
list with its head at the front. -/
structure Graph where
  nodes : Nat → NodeData
  len : Nat
  token : Nat
  recalcQueues : List (List Nat)
  recalcMinHeight : Nat
  recalcMaxHeight : Nat
  freeList : List Nat
  stillAlive : Bool

/-- Read one node of the arena. -/
def Graph.node (g : Graph) (i : Nat) : NodeData := g.nodes i

/-- Overwrite one node of the arena. -/
def Graph.setNode (g : Graph) (i : Nat) (nd : NodeData) : Graph :=
  { g with nodes := fun j => if j = i then nd else g.nodes j }

/-- Apply a function to one node of the arena. -/
def Graph.modifyNode (g : Graph) (i : Nat) (f : NodeData → NodeData) : Graph :=
  g.setNode i (f (g.node i))

/-- Replace the computation stored in a node. -/
def Graph.setComp (g : Graph) (i : Nat) (c : Comp) : Graph :=
  g.modifyNode i fun n => { n with comp := some c }

/-- Graph::new from singlethread/graph.rs: empty arena, `max_height` empty
queues, min height starts at `max_height`, max at 0, empty free list. -/
def Graph.new (token maxHeight : Nat) : Graph :=
  { nodes := fun _ => {}
    len := 0
    token := token
    recalcQueues := List.replicate maxHeight []
    recalcMinHeight := maxHeight
    recalcMaxHeight := 0
    freeList := []
    stillAlive := true }

/-- Graph::accepts_key from singlethread/graph.rs. -/
def Graph.acceptsKey (g : Graph) (k : NodeKey) : Bool :=
  k.token == g.token

/-- GraphGuard::get from singlethread/graph_guard.rs: reject the key if its
token differs from the graph's token, otherwise hand out the node. -/
def Graph.get (g : Graph) (k : NodeKey) : Option Nat :=
  if g.acceptsKey k then some k.ptr else none

/-- Modelled from the spec: RefCellVecIterator (node_iterator.rs is not in
the source tree).  Per the field comment in node_ptrs.rs, `clean_parent0` is
the first parent and `clean_parents` holds the remaining ones, so iteration
yields the inline slot first and then the spill list. -/
def NodeData.cleanParentsList (n : NodeData) : List Nat :=
  n.cleanParent0.toList ++ n.cleanParents

/-- NodeGuard::add_clean_parent from singlethread/node_guard.rs: fill the
inline slot first, push to the spill list otherwise. -/
def addCleanParent (g : Graph) (selfI parent : Nat) : Graph :=
  g.modifyNode selfI fun n =>
    if n.cleanParent0 = none then { n with cleanParent0 := some parent }
    else { n with cleanParents := n.cleanParents ++ [parent] }

/-- NodeGuard::drain_clean_parents from singlethread/node_guard.rs: empty both
the inline slot and the spill list, yielding the drained parents. -/
def drainCleanParents (g : Graph) (i : Nat) : Graph × List Nat :=
  let ps := (g.node i).cleanParentsList
  (g.modifyNode i fun n => { n with cleanParent0 := none, cleanParents := [] },
    ps)

/-- Ordered insertion into the sorted `necessary_children` vector (the slot
Rust's binary_search reports for a missing element). -/
def insertSorted (x : Nat) : List Nat → List Nat
  | [] => [x]
  | y :: ys => if x < y then x :: y :: ys else y :: insertSorted x ys

/-- NodeGuard::add_necessary_child from singlethread/node_guard.rs: insert
only when absent, and then increment the child's necessary count. -/
def addNecessaryChild (g : Graph) (selfI child : Nat) : Graph :=
  let nc := (g.node selfI).necessaryChildren
  if child ∈ nc then g
  else
    let g2 := g.modifyNode selfI fun n =>
      { n with necessaryChildren := insertSorted child nc }
    g2.modifyNode child fun n =>
      { n with necessaryCount := n.necessaryCount + 1 }

/-- NodeGuard::remove_necessary_child from singlethread/node_guard.rs: remove
only when present, and then decrement the child's necessary count. -/
def removeNecessaryChild (g : Graph) (selfI child : Nat) : Graph :=
  let nc := (g.node selfI).necessaryChildren
  if child ∈ nc then
    let g2 := g.modifyNode selfI fun n =>
      { n with necessaryChildren := nc.erase child }
    g2.modifyNode child fun n =>
      { n with necessaryCount := n.necessaryCount - 1 }
  else g

/-- NodeGuard::drain_necessary_children from singlethread/node_guard.rs:
decrement every listed child's necessary count, then empty the list. -/
def drainNecessaryChildren (g : Graph) (i : Nat) : Graph × List Nat :=
  let nc := (g.node i).necessaryChildren
  let g2 := nc.foldl
    (fun g c => g.modifyNode c fun n =>
      { n with necessaryCount := n.necessaryCount - 1 })
    g
  (g2.modifyNode i fun n => { n with necessaryChildren := [] }, nc)

/-- Engine::check_observed_raw from singlethread/engine.rs. -/
def checkObservedRaw (n : NodeData) : ObservedState :=
  if n.observed then .observed
  else if n.necessaryCount > 0 then .necessary
  else .unnecessary

/-- needs_recalc from singlethread/graph.rs: only a Ready node transitions
back to Needed. -/
def needsRecalc (g : Graph) (i : Nat) : Graph :=
  if (g.node i).recalcState ≠ .ready then g
  else g.modifyNode i fun n => { n with recalcState := .needed }

/-- GraphGuard::queue_recalc from singlethread/graph_guard.rs: a no-op on an
already Pending node; otherwise mark Pending and prepend to the height
bucket, panicking when the height reaches the configured maximum.  The
min/max height bounds are only widened when the bucket was empty. -/
def Graph.queueRecalc (g : Graph) (i : Nat) : Except EngineError Graph :=
  if (g.node i).recalcState = .pending then .ok g
  else
    let g := g.modifyNode i fun n => { n with recalcState := .pending }
    let h := (g.node i).height
    if g.recalcQueues.length ≤ h then .error .tooLargeHeight
    else
      match g.recalcQueues.getD h [] with
      | old :: olds =>
          .ok { g with recalcQueues := g.recalcQueues.set h (i :: old :: olds) }
      | [] =>
          .ok { g with
                  recalcQueues := g.recalcQueues.set h [i]
                  recalcMinHeight := min g.recalcMinHeight h
                  recalcMaxHeight := max g.recalcMaxHeight h }

/-- The loop body of GraphGuard::recalc_pop_next.  The fuel counts the
remaining iterations of the while loop, `recalcMaxHeight + 1 -
recalcMinHeight`, so fuel 0 is exactly the loop's exit condition (the
minimum height has passed the maximum): reset the maximum to 0 and report an
empty queue. -/
def recalcPopNextGo (g : Graph) : (fuel : Nat) → Graph × Option (Nat × Nat)
  | 0 => ({ g with recalcMaxHeight := 0 }, none)
  | fuel + 1 =>
    match g.recalcQueues.getD g.recalcMinHeight [] with
    | i :: rest =>
        let g2 := { g with
          recalcQueues := g.recalcQueues.set g.recalcMinHeight rest }
        let g3 := g2.modifyNode i fun n => { n with recalcState := .ready }
        (g3, some (g.recalcMinHeight, i))
    | [] =>
        recalcPopNextGo { g with recalcMinHeight := g.recalcMinHeight + 1 }
          fuel

/-- GraphGuard::recalc_pop_next from singlethread/graph_guard.rs: walk the
buckets from the minimum height upward; pop the head of the first nonempty
bucket and mark it Ready. -/
def Graph.recalcPopNext (g : Graph) : Graph × Option (Nat × Nat) :=
  recalcPopNextGo g (g.recalcMaxHeight + 1 - g.recalcMinHeight)

/-- dequeue_calc from singlethread/graph.rs: remove a Pending node from its
height bucket (the intrusive unlink, expressed as list removal); nothing to
do otherwise. -/
def dequeueCalc (g : Graph) (i : Nat) : Graph :=
  if (g.node i).recalcState ≠ .pending then g
  else
    let h := (g.node i).height
    let bucket := (g.recalcQueues.getD h []).erase i
    { g with recalcQueues := g.recalcQueues.set h bucket }

/-- free from singlethread/graph.rs: drain necessary children and clean
parents, dequeue from the recalc queue, link onto the free list, and release
the computation.  The node's token is left unchanged. -/
def free (g : Graph) (ptr : Nat) : Graph :=
  let g := (drainNecessaryChildren g ptr).1
  let g := (drainCleanParents g ptr).1
  let g := dequeueCalc g ptr
  let g := { g with freeList := ptr :: g.freeList }
  g.modifyNode ptr fun n => { n with comp := none }

/-- The field reinitialization Graph::insert performs on a node taken off the
free list (singlethread/graph.rs lines 92 to 106); also the initial state of
a freshly allocated node. -/
def reinitNode (n : NodeData) (token : Nat) (c : Comp) : NodeData :=
  { n with
      observed := false
      visited := false
      necessaryCount := 0
      token := token
      cleanParent0 := none
      cleanParents := []
      recalcState := .needed
      necessaryChildren := []
      height := 0
      handleCount := 1
      lastReady := none
      lastUpdate := none
      comp := some c }

/-- Graph::insert from singlethread/graph.rs: reuse the free-list head when
present, otherwise allocate at the end of the arena; either way the returned
key carries the graph's current token. -/
def Graph.insert (g : Graph) (c : Comp) : Graph × NodeKey :=
  match g.freeList with
  | i :: rest =>
      let g2 := { g with freeList := rest }
      let g3 := g2.modifyNode i fun n => reinitNode n g.token c
      (g3, ⟨i, g.token⟩)
  | [] =>
      let i := g.len
      let g2 := { g with len := g.len + 1 }
      let g3 := g2.modifyNode i fun n => reinitNode n g.token c
      (g3, ⟨i, g.token⟩)

/-- AnchorHandle::clone from singlethread/anchor_handle.rs. -/
def handleClone (g : Graph) (k : NodeKey) : Graph :=
  if g.stillAlive then
    g.modifyNode k.ptr fun n => { n with handleCount := n.handleCount + 1 }
  else g

/-- AnchorHandle::drop from singlethread/anchor_handle.rs: decrement the
handle count and free the node when it reaches zero. -/
def handleDrop (g : Graph) (k : NodeKey) : Graph :=
  if g.stillAlive then
    let c := (g.node k.ptr).handleCount - 1
    let g2 := g.modifyNode k.ptr fun n => { n with handleCount := c }
    if c = 0 then free g2 k.ptr else g2
  else g

/-- The u64 modulus. -/
def u64Mod : Nat := 2 ^ 64

/-- Generation::increment from singlethread/generation.rs: wrapping_add of 1
on the underlying u64, then a NonZeroU64 unwrap, which fails when the wrapped
value is zero. -/
def Generation.increment (g : Nat) : Option Nat :=
  let g2 := (g + 1) % u64Mod
  if g2 = 0 then none else some g2

/-- set_min_height from singlethread/graph.rs: fail on a visited node (a
cycle), otherwise mark visited, raise the height if below the requested
minimum and recursively raise every clean parent one higher (continuing past
failed parents, as the source loop does, and failing at the end if any parent
failed), then clear the visited mark. -/
def setMinHeight (g : Graph) (node minHeight : Nat) :
    (fuel : Nat) → Except EngineError Graph
  | 0 => .error .outOfFuel
  | fuel + 1 =>
    if (g.node node).visited then .error .cycle
    else
      let g := g.modifyNode node fun n => { n with visited := true }
      if (g.node node).height < minHeight then
        let g := g.modifyNode node fun n => { n with height := minHeight }
        let ps := (g.node node).cleanParentsList
        let r := ps.foldl
          (fun (acc : Graph × Bool) p =>
            match setMinHeight acc.1 p (minHeight + 1) fuel with
            | .ok g2 => (g2, acc.2)
            | .error _ => (acc.1, true))
          (g, false)
        if r.2 then .error .cycle
        else .ok (r.1.modifyNode node fun n => { n with visited := false })
      else .ok (g.modifyNode node fun n => { n with visited := false })

/-- ensure_height_increases from singlethread/graph.rs: nothing to do when
the child is already strictly below the parent (returns true); otherwise mark
the child visited, raise the parent to child height + 1, clear the mark, and
return false. -/
def ensureHeightIncreases (g : Graph) (child parent fuel : Nat) :
    Except EngineError (Graph × Bool) :=
  if (g.node child).height < (g.node parent).height then .ok (g, true)
  else
    let g := g.modifyNode child fun n => { n with visited := true }
    match setMinHeight g parent ((g.node child).height + 1) fuel with
    | .ok g2 => .ok (g2.modifyNode child fun n => { n with visited := false }, false)
    | .error e => .error e

/-- The mutable state of an EngineContextMut (singlethread/context_mut.rs):
the node being recalculated and the pending_on_anchor_get flag. -/
structure Ctx where
  node : Nat
  pendingOnAnchorGet : Bool
deriving DecidableEq, Repr

/-- GenericAnchor::output for the embedded computations: a VarAnchor returns
its snapshot, a Constant its value, a Map its cached output (a missing cache
is the "output called on Map before value was calculated" panic), and a
Cutoff re-reads its input through the output context (the context get is
inlined here: key lookup, the not-Ready panic, then the input's output). -/
def compOutput (g : Graph) (i : Nat) : (fuel : Nat) → Except EngineError Int
  | 0 => .error .outOfFuel
  | fuel + 1 =>
    match (g.node i).comp with
    | none => .error .missingNode
    | some (.varAnchor _ val) => .ok val
    | some (.constant val _) => .ok val
    | some (.cutoff input _) =>
        match g.get input with
        | none => .error .missingNode
        | some j =>
            if (g.node j).recalcState ≠ .ready then .error .getUnready
            else compOutput g j fuel
    | some (.map1 _ _ output _) =>
        match output with
        | some v => .ok v
        | none => .error .missingNode

/-- UpdateContext::get from singlethread/context_mut.rs (and OutputContext
EngineContext::get; context.rs is not in the source tree and is modelled from
the spec as the documented identical twin of this function): look up the
anchor, panic if it is not Ready, and return its computation's output. -/
def ctxGet (g : Graph) (k : NodeKey) (fuel : Nat) : Except EngineError Int :=
  match g.get k with
  | none => .error .missingNode
  | some i =>
      if (g.node i).recalcState ≠ .ready then .error .getUnready
      else compOutput g i fuel

/-- The generation comparison at the end of EngineContextMut::request: the
source matches (child.last_update, self.last_ready) against
`(Some a, Some b) if a <= b` for Unchanged and answers Updated in every other
case. -/
def pollFromGenerations (lu lr : Option Nat) : Poll :=
  match lu, lr with
  | some a, some b => if a ≤ b then Poll.unchanged else Poll.updated
  | _, _ => Poll.updated

/-- EngineContextMut::request from singlethread/context_mut.rs.  Returns the
updated graph, the updated context (the pending_on_anchor_get flag may be
set), and the Poll reported to the caller. -/
def request (g : Graph) (ctx : Ctx) (k : NodeKey) (necessary : Bool)
    (fuel : Nat) : Except EngineError (Graph × Ctx × Poll) :=
  match g.get k with
  | none => .error .missingNode
  | some child =>
    match ensureHeightIncreases g child ctx.node fuel with
    | .error .outOfFuel => .error .outOfFuel
    | .error _ => .error .cycle
    | .ok (g, heightAlreadyIncreased) =>
      let selfIsNecessary :=
        checkObservedRaw (g.node ctx.node) ≠ ObservedState.unnecessary
      if (g.node child).recalcState ≠ .ready then
        let ctx := { ctx with pendingOnAnchorGet := true }
        match g.queueRecalc child with
        | .error e => .error e
        | .ok g =>
          let g := if necessary && selfIsNecessary then
              addNecessaryChild g ctx.node child
            else g
          .ok (g, ctx, .pending)
      else if !heightAlreadyIncreased then
        .ok (g, { ctx with pendingOnAnchorGet := true }, .pending)
      else
        let g := addCleanParent g child ctx.node
        let g := if necessary && selfIsNecessary then
            addNecessaryChild g ctx.node child
          else g
        let poll := pollFromGenerations (g.node child).lastUpdate
          (g.node ctx.node).lastReady
        .ok (g, ctx, poll)

/-- Engine::update_necessary_children from singlethread/engine.rs: when the
node is now Unnecessary, drain its necessary children and recurse into each
of them. -/
def updateNecessaryChildren (g : Graph) (node : Nat) :
    (fuel : Nat) → Except EngineError Graph
  | 0 => .error .outOfFuel
  | fuel + 1 =>
    if checkObservedRaw (g.node node) ≠ ObservedState.unnecessary then .ok g
    else
      let r := drainNecessaryChildren g node
      r.2.foldlM (fun g c => updateNecessaryChildren g c fuel) r.1

/-- EngineContextMut::unrequest from singlethread/context_mut.rs. -/
def unrequest (g : Graph) (ctx : Ctx) (k : NodeKey) (fuel : Nat) :
    Except EngineError Graph :=
  match g.get k with
  | none => .error .missingNode
  | some child =>
      let g := removeNecessaryChild g ctx.node child
      updateNecessaryChildren g child fuel

/-- GenericAnchor::mark_dirty for the embedded computations: VarAnchor and
Constant panic (they have no inputs), Cutoff ignores it, Map sets its
output_stale flag. -/
def compMarkDirty : Comp → Except EngineError Comp
  | .varAnchor .. => .error .dirtyOnVar
  | .constant .. => .error .dirtyOnVar
  | .cutoff input f => .ok (.cutoff input f)
  | .map1 input f out _ => .ok (.map1 input f out true)

/-- mark_dirty0 from singlethread.rs: an observed-or-necessary node is
enqueued for recalc; an unnecessary Ready node becomes Needed and the dirty
mark propagates through its drained clean parents (skipping parents whose
computation is gone); Needed or Pending nodes stop the walk. -/
def markDirty0 (g : Graph) (next : Nat) :
    (fuel : Nat) → Except EngineError Graph
  | 0 => .error .outOfFuel
  | fuel + 1 =>
    if checkObservedRaw (g.node next) ≠ ObservedState.unnecessary then
      g.queueRecalc next
    else if (g.node next).recalcState = .ready then
      let g := needsRecalc g next
      let r := drainCleanParents g next
      r.2.foldlM
        (fun g p =>
          match (g.node p).comp with
          | none => .ok g
          | some c =>
            match compMarkDirty c with
            | .error e => .error e
            | .ok c2 => markDirty0 (g.setComp p c2) p fuel)
        r.1
    else .ok g

/-- mark_dirty from singlethread.rs.  With skip_self the node itself already
recalculated: its drained clean parents get their computation-level dirty
call (an unwrap: a missing computation panics here) and the walk continues
from each parent. -/
def markDirty (g : Graph) (node : Nat) (skipSelf : Bool) (fuel : Nat) :
    Except EngineError Graph :=
  if skipSelf then
    let r := drainCleanParents g node
    r.2.foldlM
      (fun g p =>
        match (g.node p).comp with
        | none => .error .missingNode
        | some c =>
          match compMarkDirty c with
          | .error e => .error e
          | .ok c2 => markDirty0 (g.setComp p c2) p fuel)
      r.1
  else markDirty0 g node fuel

/-- GenericAnchor::poll_updated for the embedded computations, each
translated from its source: VarAnchor (singlethread/var.rs), Constant
(core/constant.rs), Cutoff (core/cutoff.rs) and 1-ary Map (core/map.rs).
Requests go through the request function above. -/
def pollUpdated (g : Graph) (ctx : Ctx) (fuel : Nat) :
    Except EngineError (Graph × Ctx × Poll) :=
  match (g.node ctx.node).comp with
  | none => .error .missingNode
  | some (.varAnchor shared val) =>
      let firstUpdate := !shared.dirtyHandle
      let shared :=
        if firstUpdate then { shared with dirtyHandle := true } else shared
      let res := if shared.valueChanged then Poll.updated else Poll.unchanged
      let newVal := if shared.valueChanged then shared.val else val
      let shared := { shared with valueChanged := false }
      .ok (g.setComp ctx.node (.varAnchor shared newVal), ctx, res)
  | some (.constant val firstPoll) =>
      let res := if firstPoll then Poll.updated else Poll.unchanged
      .ok (g.setComp ctx.node (.constant val false), ctx, res)
  | some (.cutoff input f) =>
      match request g ctx input true fuel with
      | .error e => .error e
      | .ok (g, ctx, p) =>
        if p ≠ .updated then .ok (g, ctx, p)
        else
          match ctxGet g input fuel with
          | .error e => .error e
          | .ok v =>
              .ok (g, ctx, if f v then Poll.updated else Poll.unchanged)
  | some (.map1 input f output stale) =>
      if !stale && output.isSome then .ok (g, ctx, .unchanged)
      else
        match request g ctx input true fuel with
        | .error e => .error e
        | .ok (g, ctx, p) =>
          match p with
          | .pending => .ok (g, ctx, .pending)
          | _ =>
            let foundUpdated := p = Poll.updated
            let g := g.setComp ctx.node (.map1 input f output false)
            if output.isNone || foundUpdated then
              match ctxGet g input fuel with
              | .error e => .error e
              | .ok v =>
                let newVal := some (f v)
                if newVal ≠ output then
                  .ok (g.setComp ctx.node (.map1 input f newVal false), ctx,
                    .updated)
                else .ok (g, ctx, .unchanged)
            else .ok (g, ctx, .unchanged)

/-- Engine from singlethread/engine.rs: one graph, the dirty-marks queue, and
the current generation (the u64 inside the NonZeroU64). -/
structure Engine where
  graph : Graph
  dirtyMarks : List NodeKey
  generation : Nat

/-- Engine::new_with_max_height from singlethread/engine.rs. -/
def Engine.newWithMaxHeight (token maxHeight : Nat) : Engine :=
  { graph := Graph.new token maxHeight
    dirtyMarks := []
    generation := 1 }

/-- Engine::new from singlethread/engine.rs: maximum height 256. -/
def Engine.new (token : Nat) : Engine :=
  Engine.newWithMaxHeight token 256

/-- Engine::recalculate from singlethread/engine.rs: poll the node; Pending
with the pending_on_anchor_get flag reports an incomplete calculation,
Pending without it is the protocol-violation panic; Updated propagates
dirtiness to the parents and stamps both generations; Unchanged stamps only
last_ready. -/
def recalculate (e : Engine) (node fuel : Nat) :
    Except EngineError (Engine × Bool) :=
  match pollUpdated e.graph ⟨node, false⟩ fuel with
  | .error err => .error err
  | .ok (g, ctx, poll) =>
    match poll with
    | .pending =>
        if ctx.pendingOnAnchorGet then .ok ({ e with graph := g }, false)
        else .error .pendingWithoutRequest
    | .updated =>
        match markDirty g node true fuel with
        | .error err => .error err
        | .ok g =>
          let g := g.modifyNode node fun n =>
            { n with lastUpdate := some e.generation
                     lastReady := some e.generation }
          .ok ({ e with graph := g }, true)
    | .unchanged =>
        let g := g.modifyNode node fun n =>
          { n with lastReady := some e.generation }
        .ok ({ e with graph := g }, true)

/-- Engine::stabilize0 from singlethread/engine.rs: pop nodes in height
order; a node popped at a stale height is requeued without recalculating;
an incomplete recalculation requeues the node. -/
def stabilize0 (e : Engine) : (fuel : Nat) → Except EngineError Engine
  | 0 => .error .outOfFuel
  | fuel + 1 =>
    match e.graph.recalcPopNext with
    | (g, none) => .ok { e with graph := g }
    | (g, some (h, node)) =>
      let e := { e with graph := g }
      let step : Except EngineError (Engine × Bool) :=
        if (e.graph.node node).height = h then recalculate e node fuel
        else .ok (e, false)
      match step with
      | .error err => .error err
      | .ok (e, true) => stabilize0 e fuel
      | .ok (e, false) =>
        match e.graph.queueRecalc node with
        | .error err => .error err
        | .ok g => stabilize0 { e with graph := g } fuel

/-- Engine::update_dirty_marks from singlethread/engine.rs: take the queued
keys and run mark_dirty (without skip_self) from each. -/
def updateDirtyMarks (e : Engine) (fuel : Nat) :
    Except EngineError Engine :=
  let marks := e.dirtyMarks
  let e := { e with dirtyMarks := [] }
  marks.foldlM
    (fun e k =>
      match e.graph.get k with
      | none => .error .missingNode
      | some node =>
        match markDirty e.graph node false fuel with
        | .error err => .error err
        | .ok g => .ok { e with graph := g })
    e

/-- Engine::stabilize from singlethread/engine.rs: drain dirty marks,
increment the generation, and run the inner loop. -/
def stabilize (e : Engine) (fuel : Nat) : Except EngineError Engine :=
  match updateDirtyMarks e fuel with
  | .error err => .error err
  | .ok e =>
    match Generation.increment e.generation with
    | none => .error .generationOverflow
    | some gen => stabilize0 { e with generation := gen } fuel

/-- Engine::get from singlethread/engine.rs: stabilize; if the target is not
Ready, enqueue it and run the inner loop once more without touching the
generation; finally read the output (the borrow through EngineContext). -/
def engineGet (e : Engine) (k : NodeKey) (fuel : Nat) :
    Except EngineError (Engine × Int) :=
  match stabilize e fuel with
  | .error err => .error err
  | .ok e =>
    match e.graph.get k with
    | none => .error .missingNode
    | some node =>
      let after : Except EngineError Engine :=
        if (e.graph.node node).recalcState ≠ .ready then
          match e.graph.queueRecalc node with
          | .error err => .error err
          | .ok g => stabilize0 { e with graph := g } fuel
        else .ok e
      match after with
      | .error err => .error err
      | .ok e =>
        match compOutput e.graph node fuel with
        | .error err => .error err
        | .ok v => .ok (e, v)

/-- Engine::mark_observed from singlethread/engine.rs. -/
def markObserved (e : Engine) (k : NodeKey) : Except EngineError Engine :=
  match e.graph.get k with
  | none => .error .missingNode
  | some node =>
    let g := e.graph.modifyNode node fun n => { n with observed := true }
    if (g.node node).recalcState ≠ .ready then
      match g.queueRecalc node with
      | .error err => .error err
      | .ok g => .ok { e with graph := g }
    else .ok { e with graph := g }

/-- Engine::mark_unobserved from singlethread/engine.rs. -/
def markUnobserved (e : Engine) (k : NodeKey) (fuel : Nat) :
    Except EngineError Engine :=
  match e.graph.get k with
  | none => .error .missingNode
  | some node =>
    let g := e.graph.modifyNode node fun n => { n with observed := false }
    match updateNecessaryChildren g node fuel with
    | .error err => .error err
    | .ok g => .ok { e with graph := g }

/-- Var::set from singlethread/var.rs: overwrite the shared value, poke the
dirty handle if one was issued (appending the var node's key to the engine's
dirty marks), and flag value_changed. -/
def varSet (e : Engine) (node : Nat) (v : Int) : Engine :=
  match (e.graph.node node).comp with
  | some (.varAnchor shared val) =>
      let marks :=
        if shared.dirtyHandle then
          e.dirtyMarks ++ [⟨node, e.graph.token⟩]
        else e.dirtyMarks
      { e with
          graph := e.graph.setComp node
            (.varAnchor { shared with val := v, valueChanged := true } val)
          dirtyMarks := marks }
  | _ => e

/-- The S2 cutoff scenario's initial engine: a fresh engine (token 0) holding
the three mounted nodes of
`v = Variable::new(0i32); c = v.watch().cutoff(|x| x.abs() >= 10).map(|x| x + 1)`:
node 0 the VarAnchor, node 1 the Cutoff, node 2 the Map. -/
def scenarioEngine : Engine :=
  let e := Engine.new 0
  let r0 := e.graph.insert (.varAnchor ⟨false, 0, true⟩ 0)
  let r1 := r0.1.insert (.cutoff r0.2 fun x => decide (10 ≤ x.natAbs))
  let r2 := r1.1.insert (.map1 r1.2 (fun x => x + 1) none true)
  { e with graph := r2.1 }

/-- The key of the scenario's map anchor. -/
def scenarioMapKey : NodeKey := ⟨2, 0⟩

/-- The S2 cutoff scenario, end to end: get the map's value, set the variable
to 5, get again, set to 11, get again; the three observed values are
returned. -/
def cutoffScenario : Except EngineError (Int × Int × Int) :=
  match engineGet scenarioEngine scenarioMapKey 64 with
  | .error err => .error err
  | .ok (e, a) =>
    let e := varSet e 0 5
    match engineGet e scenarioMapKey 64 with
    | .error err => .error err
    | .ok (e, b) =>
      let e := varSet e 0 11
      match engineGet e scenarioMapKey 64 with
      | .error err => .error err
      | .ok (_, c) => .ok (a, b, c)

/-- A graph holding a clean-parent cycle, built exactly as the repository's
own cycles_cause_error test does: two nodes, raise node 1 above node 0 with
ensure_height_increases, then record node 1 as a clean parent of node 0.
Node 0's computation requests node 1 as its input. -/
def c4Graph : Graph :=
  let g := Graph.new 0 256
  let r0 := g.insert (.map1 ⟨1, 0⟩ (fun x => x + 1) none true)
  let r1 := r0.1.insert (.map1 ⟨0, 0⟩ (fun x => x + 1) none true)
  let g :=
    match ensureHeightIncreases r1.1 0 1 64 with
    | .ok r => r.1
    | .error _ => r1.1
  addCleanParent g 0 1

/-- The engine owning the cyclic graph. -/
def c4Engine : Engine :=
  { graph := c4Graph, dirtyMarks := [], generation := 1 }

/-- The S6 handle-lifetime scenario, step 1: a fresh graph (token 7) with one
anchor inserted. -/
def c1Step1 : Graph × NodeKey := (Graph.new 7 256).insert (.constant 1 true)

/-- The stale key: the key of the first anchor, taken before its handle is
dropped. -/
def c1StaleKey : NodeKey := c1Step1.2

/-- Step 2: the only handle to the first anchor is dropped, freeing its node
onto the free list. -/
def c1Graph2 : Graph := handleDrop c1Step1.1 c1StaleKey

/-- Step 3: a new anchor is created; it reuses the freed node's storage. -/
def c1Step3 : Graph × NodeKey := c1Graph2.insert (.constant 2 true)

/-- The new anchor's key. -/
def c1NewKey : NodeKey := c1Step3.2

/-- The graph after the reuse. -/
def c1Graph3 : Graph := c1Step3.1

/-- The height invariant of spec section 3, invariant (3): every node listed
as a clean parent of a node sits strictly above it. -/
def HeightInv (g : Graph) : Prop :=
  ∀ c, c < g.len → ∀ p ∈ (g.node c).cleanParentsList,
    (g.node c).height < (g.node p).height

/-- Executable form of the height invariant. -/
def heightInvCheck (g : Graph) : Bool :=
  (List.range g.len).all fun c =>
    (g.node c).cleanParentsList.all fun p =>
      decide ((g.node c).height < (g.node p).height)

instance (g : Graph) : Decidable (HeightInv g) :=
  decidable_of_iff (heightInvCheck g = true) (by
    simp [heightInvCheck, HeightInv, List.all_eq_true, List.mem_range])

/-- The number of nodes currently listing `c` among their necessary
children. -/
def parentRefCount (g : Graph) (c : Nat) : Nat :=
  ∑ p ∈ Finset.range g.len,
    if c ∈ (g.node p).necessaryChildren then 1 else 0

/-- The necessary-count invariant of spec section 3, invariant (4): every
node's necessary count equals the number of nodes whose necessary-children
set contains it. -/
def CountInv (g : Graph) : Prop :=
  ∀ c, c < g.len → (g.node c).necessaryCount = parentRefCount g c

/-- Executable form of the necessary-count invariant. -/
def countInvCheck (g : Graph) : Bool :=
  (List.range g.len).all fun c =>
    (g.node c).necessaryCount == parentRefCount g c

instance (g : Graph) : Decidable (CountInv g) :=
  decidable_of_iff (countInvCheck g = true) (by
    simp [countInvCheck, CountInv, List.all_eq_true, List.mem_range])

/-- What one set_min_height call (and hence one successful height fixup)
does to the graph: the arena size, every clean-parent list and every
generation stamp are untouched; heights never decrease; a node whose visited
flag is set is left completely alone (set_min_height refuses to enter it);
and any node whose height was raised ends with all of its clean parents
strictly above it. -/
def SMHPres (g g2 : Graph) : Prop :=
  g2.len = g.len ∧
  (∀ j, (g2.node j).cleanParentsList = (g.node j).cleanParentsList) ∧
  (∀ j, (g.node j).height ≤ (g2.node j).height) ∧
  (∀ j, (g2.node j).lastUpdate = (g.node j).lastUpdate ∧
    (g2.node j).lastReady = (g.node j).lastReady) ∧
  (∀ j, (g.node j).visited = true →
    (g2.node j).height = (g.node j).height ∧ (g2.node j).visited = true) ∧
  (∀ c, (g.node c).height < (g2.node c).height →
    ∀ p ∈ (g2.node c).cleanParentsList,
      (g2.node c).height < (g2.node p).height)

/-- A var node feeding a map node, after one engineGet has built the clean
edge: the state used to exhibit how free-list reuse interacts with the
height invariant. -/
def c5Engine1 : Engine :=
  let e := Engine.new 3
  let r0 := e.graph.insert (.varAnchor ⟨false, 0, true⟩ 0)
  let r1 := r0.1.insert (.map1 r0.2 (fun x => x + 1) none true)
  { e with graph := r1.1 }

/-- The graph after engineGet evaluated the map once (building the edge from
the var node to the map node and raising the map's height). -/
def c5Graph2 : Graph :=
  match engineGet c5Engine1 ⟨1, 3⟩ 64 with
  | .ok (e, _) => e.graph
  | .error _ => c5Engine1.graph

/-- The graph after the map anchor's only handle is dropped: node 1 is freed,
while node 0 still lists it as a clean parent. -/
def c5Graph3 : Graph := handleDrop c5Graph2 ⟨1, 3⟩

/-- The graph after a new anchor reuses node 1's storage, resetting its
height to 0 underneath node 0's stale clean-parent entry. -/
def c5Graph4 : Graph := (c5Graph3.insert (.constant 5 true)).1

/-- Order on optional generation stamps, an unset stamp preceding every set
one. -/
def optGenLE : Option Nat → Option Nat → Bool
  | none, _ => true
  | some _, none => false
  | some a, some b => a ≤ b

/-- The generation-stamp invariant: every node in the arena satisfies
last_update ≤ last_ready, with an unset generation preceding every set
one. -/
def GenInvG (g : Graph) : Prop :=
  ∀ j, j < g.len →
    optGenLE (g.node j).lastUpdate (g.node j).lastReady = true

/-- Executable form of the generation-stamp invariant. -/
def genInvCheck (g : Graph) : Bool :=
  (List.range g.len).all fun j =>
    optGenLE (g.node j).lastUpdate (g.node j).lastReady

instance (g : Graph) : Decidable (GenInvG g) :=
  decidable_of_iff (genInvCheck g = true) (by
    simp [genInvCheck, GenInvG, List.all_eq_true, List.mem_range])

/-- Every stored generation stamp is bounded by the engine's current
generation, which itself fits in a u64. -/
def GenBoundG (g : Graph) (gen : Nat) : Prop :=
  gen < u64Mod ∧
  ∀ j, j < g.len →
    optGenLE (g.node j).lastUpdate (some gen) = true ∧
    optGenLE (g.node j).lastReady (some gen) = true

/-- Executable form of the generation bound. -/
def genBoundCheck (g : Graph) (gen : Nat) : Bool :=
  decide (gen < u64Mod) &&
    ((List.range g.len).all fun j =>
      optGenLE (g.node j).lastUpdate (some gen) &&
        optGenLE (g.node j).lastReady (some gen))

instance (g : Graph) (gen : Nat) : Decidable (GenBoundG g gen) :=
  decidable_of_iff (genBoundCheck g gen = true) (by
    simp [genBoundCheck, GenBoundG, List.all_eq_true, List.mem_range])

/-- Relation between a graph and a mutated version of it that leaves the
arena size and every node's generation stamps untouched. -/
def GenKeep (g g2 : Graph) : Prop :=
  g2.len = g.len ∧ ∀ j,
    (g2.node j).lastUpdate = (g.node j).lastUpdate ∧
    (g2.node j).lastReady = (g.node j).lastReady

/-- Every public operation of the engine (section 6 of the spec), as acted
on an engine state. -/
inductive EngineOp where
  | getOp (k : NodeKey)
  | stabilizeOp
  | varSetOp (node : Nat) (v : Int)
  | markObservedOp (k : NodeKey)
  | markUnobservedOp (k : NodeKey)
  | mountOp (c : Comp)
  | handleCloneOp (k : NodeKey)
  | handleDropOp (k : NodeKey)

/-- Run one public engine operation. -/
def applyOp (e : Engine) (op : EngineOp) (fuel : Nat) :
    Except EngineError Engine :=
  match op with
  | .getOp k =>
      match engineGet e k fuel with
      | .error err => .error err
      | .ok (e2, _) => .ok e2
  | .stabilizeOp => stabilize e fuel
  | .varSetOp n v => .ok (varSet e n v)
  | .markObservedOp k => markObserved e k
  | .markUnobservedOp k => markUnobserved e k fuel
  | .mountOp c => .ok { e with graph := (e.graph.insert c).1 }
  | .handleCloneOp k => .ok { e with graph := handleClone e.graph k }
  | .handleDropOp k => .ok { e with graph := handleDrop e.graph k }

/-- The graph state produced by the scenario map node's first poll, which
suspends on its unready cutoff input. -/
def c7PendingGraph : Graph :=
  match pollUpdated scenarioEngine.graph ⟨2, false⟩ 32 with
  | .ok (g, _, _) => g
  | .error _ => scenarioEngine.graph

/-- The engine state after one stabilize of the scenario engine, used to
witness the generation-stamp preservation theorem. -/
def c8StabResult : Engine :=
  match applyOp scenarioEngine .stabilizeOp 32 with
  | .ok e2 => e2
  | .error _ => scenarioEngine

/-- A graph with maximum height 10 holding one node raised to height 10, as
in the repository's test_insert_above_max_height test. -/
def c9TallGraph : Graph :=
  let g := ((Graph.new 0 10).insert (.constant 123 true)).1
  match setMinHeight g 0 10 16 with
  | .ok g2 => g2
  | .error _ => g

/-- A two-node graph with node 0 Ready below node 1: node 0 last updated at
generation 2, node 1 last ready at generation 2. -/
def c6Graph : Graph :=
  let g := (((Graph.new 0 256).insert (.constant 1 true)).1.insert
    (.constant 2 true)).1
  let g := g.modifyNode 0 fun n =>
    { n with recalcState := .ready, lastUpdate := some 2 }
  g.modifyNode 1 fun n => { n with height := 1, lastReady := some 2 }

/-- The graph produced by the concrete request used to witness the height
preservation theorem. -/
def c5ReqResult : Graph :=
  match request c6Graph ⟨1, false⟩ ⟨0, 0⟩ true 8 with
  | .ok (g2, _, _) => g2
  | .error _ => c6Graph

/-! ## Basic lemmas about the arena accessors -/

theorem node_setNode_self (g : Graph) (i : Nat) (nd : NodeData) :
    (g.setNode i nd).node i = nd := by
  simp [Graph.node, Graph.setNode]

theorem node_setNode_ne (g : Graph) (i j : Nat) (nd : NodeData)
    (h : j ≠ i) : (g.setNode i nd).node j = g.node j := by
  simp [Graph.node, Graph.setNode, h]

theorem node_modifyNode_self (g : Graph) (i : Nat) (f : NodeData → NodeData) :
    (g.modifyNode i f).node i = f (g.node i) :=
  node_setNode_self ..

theorem node_modifyNode_ne (g : Graph) (i j : Nat) (f : NodeData → NodeData)
    (h : j ≠ i) : (g.modifyNode i f).node j = g.node j :=
  node_setNode_ne _ _ _ _ h

theorem node_modifyNode (g : Graph) (i j : Nat) (f : NodeData → NodeData) :
    (g.modifyNode i f).node j = if j = i then f (g.node i) else g.node j := by
  by_cases h : j = i
  · subst h; simp [node_modifyNode_self]
  · simp [h, node_modifyNode_ne _ _ _ _ h]

/-! ## C3: the generation counter -/

/-- C3 counterexample: at the wrap point u64::MAX, Generation::increment does
not wrap past zero; the NonZeroU64 unwrap fails (a panic), refuting "the
increment never fails, including at the wrap point". -/
theorem generation_increment_fails_at_max :
    Generation.increment (2 ^ 64 - 1) = none := by
  norm_num [Generation.increment, u64Mod]

/-- C3 amended: below the wrap point the increment is total, adds exactly
one, stays non-zero and strictly increases; at u64::MAX it fails instead of
wrapping. -/
theorem generation_increment_below_max (g : Nat) (h : g + 1 < 2 ^ 64) :
    Generation.increment g = some (g + 1) ∧ g + 1 ≠ 0 ∧ g < g + 1 := by
  have h1 : (g + 1) % u64Mod = g + 1 := Nat.mod_eq_of_lt (by simpa [u64Mod] using h)
  refine ⟨?_, by omega, by omega⟩
  simp [Generation.increment, h1]

/-- Witness for C3's amended theorem at generation 5. -/
theorem generation_increment_below_max_witness :
    Generation.increment 5 = some 6 ∧ (6 : Nat) ≠ 0 ∧ (5 : Nat) < 6 := by
  simpa using generation_increment_below_max 5 (by norm_num)

/-! ## C1: free-list reuse and stale keys -/

/-- C1 counterexample: after the only handle is dropped (freeing node 0 onto
the free list) and a new anchor is inserted, the new anchor reuses slot 0
(the arena did not grow) with a key identical to the stale key, and graph
lookup with the stale key resolves to exactly the reused node. -/
theorem stale_key_resolves_to_reused_node :
    c1Graph3.get c1StaleKey = some c1NewKey.ptr ∧
    c1NewKey = c1StaleKey ∧
    c1Graph2.freeList = [0] ∧
    c1Graph3.len = 1 :=
  ⟨rfl, rfl, rfl, rfl⟩

/-- C1 amended: key validation rejects exactly the keys whose token differs
from the graph's token (keys of other graphs); within one graph the key of a
node reusing freed storage equals the stale key, so the stale key does
resolve to the reused node. -/
theorem stale_key_amended :
    (∀ (g : Graph) (k : NodeKey), k.token ≠ g.token → g.get k = none) ∧
    c1Graph3.get c1StaleKey = some 0 ∧ c1NewKey = c1StaleKey := by
  refine ⟨?_, rfl, rfl⟩
  intro g k h
  simp [Graph.get, Graph.acceptsKey, h]

/-- Witness for C1's amended theorem: a key carrying token 8 never resolves
in a graph whose token is 7. -/
theorem stale_key_amended_witness :
    (Graph.new 7 256).get ⟨0, 8⟩ = none :=
  stale_key_amended.1 (Graph.new 7 256) ⟨0, 8⟩ (by decide)

/-! ## C2: the cutoff scenario -/

/-- C2: evaluating the S2 scenario on the embedded code yields (1, 6, 12),
not the specified (1, 1, 12): after v.set(5) the cutoff polls Unchanged, but
its last_update is still unset, so the downstream map's request is answered
Updated and the map recomputes to 6. -/
theorem cutoff_scenario_eval : cutoffScenario = .ok (1, 6, 12) := by
  rfl

/-! ## C4: cycle detection is fatal -/

/-- C4: whenever the recursive height raise for a requested edge fails with
the cycle error (a node with its visited flag already set was encountered),
ctx.request fails with the cycle panic; and engine.get on the concrete
cyclic graph built like the repository's cycles_cause_error test fails with
the cycle panic rather than returning a value. -/
theorem request_cycle_is_fatal :
    (∀ (g : Graph) (ctx : Ctx) (k : NodeKey) (nec : Bool) (fuel child : Nat),
      g.get k = some child →
      ensureHeightIncreases g child ctx.node fuel = .error .cycle →
      request g ctx k nec fuel = .error .cycle) ∧
    engineGet c4Engine ⟨0, 0⟩ 64 = .error .cycle := by
  refine ⟨?_, rfl⟩
  intro g ctx k nec fuel child hk he
  simp [request, hk, he]

/-- Witness for C4: the concrete cyclic request on the test graph. -/
theorem request_cycle_is_fatal_witness :
    request c4Graph ⟨0, false⟩ ⟨1, 0⟩ true 64 = .error .cycle :=
  request_cycle_is_fatal.1 c4Graph ⟨0, false⟩ ⟨1, 0⟩ true 64 1 rfl rfl

/-! ## C7: Pending handling in recalculate -/

/-- C7: when a node's poll_updated returns Pending, recalculate reports an
incomplete calculation exactly when the context's pending_on_anchor_get flag
was set during the call, and panics with the protocol violation otherwise;
an incomplete calculation makes the stabilization loop re-enqueue the node
and continue. -/
theorem recalculate_pending_protocol (e : Engine) (node fuel : Nat) :
    (∀ g2 ctx2,
      pollUpdated e.graph ⟨node, false⟩ fuel = .ok (g2, ctx2, .pending) →
      (ctx2.pendingOnAnchorGet = true →
        recalculate e node fuel = .ok ({ e with graph := g2 }, false)) ∧
      (ctx2.pendingOnAnchorGet = false →
        recalculate e node fuel = .error .pendingWithoutRequest)) ∧
    (∀ g1 h e2 g3,
      e.graph.recalcPopNext = (g1, some (h, node)) →
      (g1.node node).height = h →
      recalculate { e with graph := g1 } node fuel = .ok (e2, false) →
      e2.graph.queueRecalc node = .ok g3 →
      stabilize0 e (fuel + 1) = stabilize0 { e2 with graph := g3 } fuel) := by
  constructor
  · intro g2 ctx2 hpoll
    constructor
    · intro hflag
      simp [recalculate, hpoll, hflag]
    · intro hflag
      simp [recalculate, hpoll, hflag]
  · intro g1 h e2 g3 hpop hheight hrecalc hqueue
    simp [stabilize0, hpop, hheight, hrecalc, hqueue]

/-- Witness for C7: the scenario map node's first poll suspends with the
flag set, so recalculate reports an incomplete calculation. -/
theorem recalculate_pending_protocol_witness :
    recalculate scenarioEngine 2 32 =
      .ok ({ scenarioEngine with graph := c7PendingGraph }, false) :=
  ((recalculate_pending_protocol scenarioEngine 2 32).1 c7PendingGraph
    ⟨2, true⟩ rfl).1 rfl

/-! ## C9: the height limit of the recalc queue -/

/-- C9: enqueuing a non-Pending node whose height has reached the number of
queue buckets (the configured maximum height) is the too-large-height panic;
every enqueue at a height strictly below the maximum succeeds; and the
default engine's maximum height is 256. -/
theorem queue_recalc_height_limit (g : Graph) (i : Nat) :
    ((g.node i).height < g.recalcQueues.length →
      ∃ g2, g.queueRecalc i = .ok g2) ∧
    ((g.node i).recalcState ≠ .pending →
      g.recalcQueues.length ≤ (g.node i).height →
      g.queueRecalc i = .error .tooLargeHeight) ∧
    (Engine.new 0).graph.recalcQueues.length = 256 := by
  have hh : ((g.modifyNode i fun n =>
      { n with recalcState := RecalcState.pending }).node i).height
      = (g.node i).height := by
    rw [node_modifyNode_self]
  have hq : (g.modifyNode i fun n =>
      { n with recalcState := RecalcState.pending }).recalcQueues
      = g.recalcQueues := rfl
  refine ⟨?_, ?_, by simp [Engine.new, Engine.newWithMaxHeight, Graph.new]⟩
  · intro h
    by_cases hp : (g.node i).recalcState = .pending
    · exact ⟨g, by simp [Graph.queueRecalc, hp]⟩
    · unfold Graph.queueRecalc
      rw [if_neg hp]
      simp only [hh, hq]
      rw [if_neg (by omega)]
      cases hb : g.recalcQueues.getD (g.node i).height [] with
      | nil => exact ⟨_, rfl⟩
      | cons a as => exact ⟨_, rfl⟩
  · intro hp hlen
    unfold Graph.queueRecalc
    rw [if_neg hp]
    simp only [hh, hq]
    rw [if_pos (by omega)]

/-- Witness for C9: an enqueue below the maximum succeeds on the scenario
graph; an enqueue of the height-10 node in the max-height-10 graph panics. -/
theorem queue_recalc_height_limit_witness :
    (∃ g2, scenarioEngine.graph.queueRecalc 0 = .ok g2) ∧
    c9TallGraph.queueRecalc 0 = .error .tooLargeHeight :=
  ⟨(queue_recalc_height_limit scenarioEngine.graph 0).1 (by decide),
   (queue_recalc_height_limit c9TallGraph 0).2.1 (by decide) (by decide)⟩

/-! ## C6: request on a Ready child over an already-valid edge -/

theorem node_modify_keep {α : Sort _} (F : NodeData → α) (g : Graph)
    (i : Nat) (f : NodeData → NodeData)
    (hf : F (f (g.node i)) = F (g.node i)) (j : Nat) :
    F ((g.modifyNode i f).node j) = F (g.node j) := by
  by_cases hj : j = i
  · subst hj
    rw [node_modifyNode_self, hf]
  · rw [node_modifyNode_ne _ _ _ _ hj]

theorem addCleanParent_lastUpdate (g : Graph) (s p j : Nat) :
    ((addCleanParent g s p).node j).lastUpdate = (g.node j).lastUpdate := by
  unfold addCleanParent
  exact node_modify_keep _ _ _ _ (by split <;> rfl) _

theorem addCleanParent_lastReady (g : Graph) (s p j : Nat) :
    ((addCleanParent g s p).node j).lastReady = (g.node j).lastReady := by
  unfold addCleanParent
  exact node_modify_keep _ _ _ _ (by split <;> rfl) _

theorem addNecessaryChild_lastUpdate (g : Graph) (s c j : Nat) :
    ((addNecessaryChild g s c).node j).lastUpdate = (g.node j).lastUpdate := by
  simp only [addNecessaryChild]
  split
  · rfl
  · rw [node_modify_keep (fun n => n.lastUpdate) _ _ _ rfl,
      node_modify_keep (fun n => n.lastUpdate) _ _ _ rfl]

theorem addNecessaryChild_lastReady (g : Graph) (s c j : Nat) :
    ((addNecessaryChild g s c).node j).lastReady = (g.node j).lastReady := by
  simp only [addNecessaryChild]
  split
  · rfl
  · rw [node_modify_keep (fun n => n.lastReady) _ _ _ rfl,
      node_modify_keep (fun n => n.lastReady) _ _ _ rfl]

theorem addNecessaryChild_cleanParentsList (g : Graph) (s c j : Nat) :
    ((addNecessaryChild g s c).node j).cleanParentsList
      = (g.node j).cleanParentsList := by
  simp only [addNecessaryChild]
  split
  · rfl
  · rw [node_modify_keep (fun n => n.cleanParentsList) _ _ _ rfl,
      node_modify_keep (fun n => n.cleanParentsList) _ _ _ rfl]

theorem addCleanParent_self_perm (g : Graph) (s p : Nat) :
    ((addCleanParent g s p).node s).cleanParentsList.Perm
      (p :: (g.node s).cleanParentsList) := by
  unfold addCleanParent
  rw [node_modifyNode_self]
  cases h0 : (g.node s).cleanParent0 with
  | none => simp [h0, NodeData.cleanParentsList]
  | some q =>
      rw [if_neg (by simp [h0])]
      simp only [NodeData.cleanParentsList, h0, Option.toList_some,
        List.singleton_append]
      exact (List.perm_append_comm.cons q).trans (List.Perm.swap p q _)

/-- C6: a request whose child is Ready and whose edge was already valid (the
child's height is strictly below the requester's, so no height change was
needed) records the requesting node among the child's clean parents and is
answered Unchanged when both generations are set and child.last_update is at
most self.last_ready, and Updated otherwise; the pending flag is not set. -/
theorem request_ready_valid_edge (g : Graph) (ctx : Ctx) (k : NodeKey)
    (nec : Bool) (fuel : Nat) (child : Nat)
    (hk : g.get k = some child)
    (hh : (g.node child).height < (g.node ctx.node).height)
    (hr : (g.node child).recalcState = .ready) :
    ∃ g2, request g ctx k nec fuel = .ok (g2, ctx,
        pollFromGenerations (g.node child).lastUpdate
          (g.node ctx.node).lastReady) ∧
      (g2.node child).cleanParentsList.Perm
        (ctx.node :: (g.node child).cleanParentsList) := by
  have hehi : ensureHeightIncreases g child ctx.node fuel = .ok (g, true) := by
    unfold ensureHeightIncreases
    rw [if_pos hh]
  simp only [request, hk, hehi, hr]
  rw [if_neg (by simp)]
  rw [if_neg (by simp)]
  by_cases hnn : (nec && decide
      (checkObservedRaw (g.node ctx.node) ≠ ObservedState.unnecessary)) = true
  · rw [if_pos hnn]
    refine ⟨addNecessaryChild (addCleanParent g child ctx.node) ctx.node child,
      ?_, ?_⟩
    · rw [addNecessaryChild_lastUpdate, addNecessaryChild_lastReady,
        addCleanParent_lastUpdate, addCleanParent_lastReady]
    · rw [addNecessaryChild_cleanParentsList]
      exact addCleanParent_self_perm g child ctx.node
  · rw [if_neg hnn]
    refine ⟨addCleanParent g child ctx.node, ?_, ?_⟩
    · rw [addCleanParent_lastUpdate, addCleanParent_lastReady]
    · exact addCleanParent_self_perm g child ctx.node

/-- Witness for C6 on the concrete two-node graph: the request is answered
Unchanged (both generations are 2) and the requester is recorded. -/
theorem request_ready_valid_edge_witness :
    ∃ g2, request c6Graph ⟨1, false⟩ ⟨0, 0⟩ true 8 = .ok (g2, ⟨1, false⟩,
        pollFromGenerations (c6Graph.node 0).lastUpdate
          (c6Graph.node 1).lastReady) ∧
      (g2.node 0).cleanParentsList.Perm
        (1 :: (c6Graph.node 0).cleanParentsList) :=
  request_ready_valid_edge c6Graph ⟨1, false⟩ ⟨0, 0⟩ true 8 0 rfl (by decide)
    (by decide)

/-! ## C10: necessary-children accounting -/

theorem mem_insertSorted (x y : Nat) (l : List Nat) :
    x ∈ insertSorted y l ↔ x = y ∨ x ∈ l := by
  induction l with
  | nil => simp [insertSorted]
  | cons a as ih =>
      unfold insertSorted
      split
      · simp [List.mem_cons]
      · simp only [List.mem_cons, ih]
        tauto

theorem addNecessaryChild_children (g : Graph) (p c : Nat)
    (h : c ∉ (g.node p).necessaryChildren) (q : Nat) :
    ((addNecessaryChild g p c).node q).necessaryChildren =
      if q = p then insertSorted c ((g.node p).necessaryChildren)
      else (g.node q).necessaryChildren := by
  simp only [addNecessaryChild]
  rw [if_neg h]
  rw [node_modify_keep (fun n => n.necessaryChildren) _ _ _ rfl]
  rw [node_modifyNode]
  by_cases hq : q = p
  · simp [hq]
  · simp [hq]

theorem addNecessaryChild_count (g : Graph) (p c : Nat)
    (h : c ∉ (g.node p).necessaryChildren) (d : Nat) :
    ((addNecessaryChild g p c).node d).necessaryCount =
      if d = c then (g.node d).necessaryCount + 1
      else (g.node d).necessaryCount := by
  simp only [addNecessaryChild]
  rw [if_neg h]
  by_cases hd : d = c
  · subst hd
    rw [node_modifyNode_self, if_pos rfl]
    show ((g.modifyNode p _).node d).necessaryCount + 1 = _
    rw [node_modify_keep (fun n => n.necessaryCount) _ _ _ rfl]
  · rw [node_modifyNode_ne _ _ _ _ hd, if_neg hd]
    rw [node_modify_keep (fun n => n.necessaryCount) _ _ _ rfl]

theorem removeNecessaryChild_children (g : Graph) (p c : Nat)
    (h : c ∈ (g.node p).necessaryChildren) (q : Nat) :
    ((removeNecessaryChild g p c).node q).necessaryChildren =
      if q = p then ((g.node p).necessaryChildren).erase c
      else (g.node q).necessaryChildren := by
  simp only [removeNecessaryChild]
  rw [if_pos h]
  rw [node_modify_keep (fun n => n.necessaryChildren) _ _ _ rfl]
  rw [node_modifyNode]
  by_cases hq : q = p
  · simp [hq]
  · simp [hq]

theorem removeNecessaryChild_count (g : Graph) (p c : Nat)
    (h : c ∈ (g.node p).necessaryChildren) (d : Nat) :
    ((removeNecessaryChild g p c).node d).necessaryCount =
      if d = c then (g.node d).necessaryCount - 1
      else (g.node d).necessaryCount := by
  simp only [removeNecessaryChild]
  rw [if_pos h]
  by_cases hd : d = c
  · subst hd
    rw [node_modifyNode_self, if_pos rfl]
    show ((g.modifyNode p _).node d).necessaryCount - 1 = _
    rw [node_modify_keep (fun n => n.necessaryCount) _ _ _ rfl]
  · rw [node_modifyNode_ne _ _ _ _ hd, if_neg hd]
    rw [node_modify_keep (fun n => n.necessaryCount) _ _ _ rfl]

theorem parentRefCount_pointwise (g g2 : Graph) (hlen : g2.len = g.len)
    (d : Nat)
    (h : ∀ q, q < g.len →
      (d ∈ (g2.node q).necessaryChildren ↔ d ∈ (g.node q).necessaryChildren)) :
    parentRefCount g2 d = parentRefCount g d := by
  unfold parentRefCount
  rw [hlen]
  apply Finset.sum_congr rfl
  intro q hq
  rw [Finset.mem_range] at hq
  by_cases hm : d ∈ (g.node q).necessaryChildren
  · rw [if_pos hm, if_pos ((h q hq).mpr hm)]
  · rw [if_neg hm, if_neg (fun hx => hm ((h q hq).mp hx))]

theorem parentRefCount_flip_one (g g2 : Graph) (hlen : g2.len = g.len)
    (p d : Nat) (hp : p < g.len)
    (hsame : ∀ q, q < g.len → q ≠ p →
      (d ∈ (g2.node q).necessaryChildren ↔ d ∈ (g.node q).necessaryChildren))
    (hnew : d ∈ (g2.node p).necessaryChildren)
    (hold : d ∉ (g.node p).necessaryChildren) :
    parentRefCount g2 d = parentRefCount g d + 1 := by
  unfold parentRefCount
  rw [hlen]
  have hpmem : p ∈ Finset.range g.len := Finset.mem_range.mpr hp
  rw [← Finset.add_sum_erase _ _ hpmem, ← Finset.add_sum_erase _ _ hpmem]
  rw [if_pos hnew, if_neg hold]
  have hcong : ∀ q ∈ (Finset.range g.len).erase p,
      (if d ∈ (g2.node q).necessaryChildren then (1 : Nat) else 0)
        = if d ∈ (g.node q).necessaryChildren then 1 else 0 := by
    intro q hq
    have hqp := Finset.ne_of_mem_erase hq
    have hqlt : q < g.len := Finset.mem_range.mp (Finset.mem_of_mem_erase hq)
    by_cases hm : d ∈ (g.node q).necessaryChildren
    · rw [if_pos hm, if_pos ((hsame q hqlt hqp).mpr hm)]
    · rw [if_neg hm, if_neg (fun hx => hm ((hsame q hqlt hqp).mp hx))]
  rw [Finset.sum_congr rfl hcong]
  omega

theorem parentRefCount_drop_one (g g2 : Graph) (hlen : g2.len = g.len)
    (p d : Nat) (hp : p < g.len)
    (hsame : ∀ q, q < g.len → q ≠ p →
      (d ∈ (g2.node q).necessaryChildren ↔ d ∈ (g.node q).necessaryChildren))
    (hnew : d ∉ (g2.node p).necessaryChildren)
    (hold : d ∈ (g.node p).necessaryChildren) :
    parentRefCount g d = parentRefCount g2 d + 1 := by
  unfold parentRefCount
  rw [hlen]
  have hpmem : p ∈ Finset.range g.len := Finset.mem_range.mpr hp
  rw [← Finset.add_sum_erase _ _ hpmem, ← Finset.add_sum_erase _ _ hpmem]
  rw [if_pos hold, if_neg hnew]
  have hcong : ∀ q ∈ (Finset.range g.len).erase p,
      (if d ∈ (g2.node q).necessaryChildren then (1 : Nat) else 0)
        = if d ∈ (g.node q).necessaryChildren then 1 else 0 := by
    intro q hq
    have hqp := Finset.ne_of_mem_erase hq
    have hqlt : q < g.len := Finset.mem_range.mp (Finset.mem_of_mem_erase hq)
    by_cases hm : d ∈ (g.node q).necessaryChildren
    · rw [if_pos hm, if_pos ((hsame q hqlt hqp).mpr hm)]
    · rw [if_neg hm, if_neg (fun hx => hm ((hsame q hqlt hqp).mp hx))]
  rw [Finset.sum_congr rfl hcong]
  omega

theorem addNecessaryChild_len (g : Graph) (p c : Nat) :
    (addNecessaryChild g p c).len = g.len := by
  simp only [addNecessaryChild]
  split <;> rfl

theorem removeNecessaryChild_len (g : Graph) (p c : Nat) :
    (removeNecessaryChild g p c).len = g.len := by
  simp only [removeNecessaryChild]
  split <;> rfl

/-- C10: add_necessary_child is idempotent on a present child and otherwise
inserts the child once (into the sorted vector) while incrementing its
necessary count by exactly one; remove_necessary_child on an absent child is
a no-op; and both operations preserve the accounting invariant that every
node's necessary count equals the number of nodes whose necessary-children
set contains it (for removal, under the sorted vector's no-duplicates
representation invariant). -/
theorem necessary_child_accounting (g : Graph) (p c : Nat) :
    (c ∈ (g.node p).necessaryChildren → addNecessaryChild g p c = g) ∧
    (c ∉ (g.node p).necessaryChildren →
      ((addNecessaryChild g p c).node p).necessaryChildren
          = insertSorted c ((g.node p).necessaryChildren) ∧
      ((addNecessaryChild g p c).node c).necessaryCount
          = (g.node c).necessaryCount + 1) ∧
    (c ∉ (g.node p).necessaryChildren → removeNecessaryChild g p c = g) ∧
    (CountInv g → p < g.len → CountInv (addNecessaryChild g p c)) ∧
    (CountInv g → p < g.len → (g.node p).necessaryChildren.Nodup →
      CountInv (removeNecessaryChild g p c)) := by
  refine ⟨?_, ?_, ?_, ?_, ?_⟩
  · intro h
    simp only [addNecessaryChild]
    rw [if_pos h]
  · intro h
    constructor
    · rw [addNecessaryChild_children g p c h p, if_pos rfl]
    · rw [addNecessaryChild_count g p c h c, if_pos rfl]
  · intro h
    simp only [removeNecessaryChild]
    rw [if_neg h]
  · intro hinv hp
    by_cases hc : c ∈ (g.node p).necessaryChildren
    · simp only [addNecessaryChild]
      rw [if_pos hc]
      exact hinv
    · intro d hd
      rw [addNecessaryChild_len] at hd
      by_cases hdc : d = c
      · rw [addNecessaryChild_count g p c hc d, if_pos hdc]
        rw [parentRefCount_flip_one g _ (addNecessaryChild_len g p c) p d hp
          (fun q hq hqp => by
            rw [addNecessaryChild_children g p c hc q, if_neg hqp])
          (by
            rw [addNecessaryChild_children g p c hc p, if_pos rfl,
              mem_insertSorted]
            exact Or.inl hdc)
          (fun hx => hc (hdc ▸ hx))]
        rw [hinv d hd]
      · rw [addNecessaryChild_count g p c hc d, if_neg hdc]
        rw [parentRefCount_pointwise g _ (addNecessaryChild_len g p c) d
          (fun q hq => by
            rw [addNecessaryChild_children g p c hc q]
            by_cases hqp : q = p
            · rw [if_pos hqp, hqp, mem_insertSorted]
              simp [hdc]
            · rw [if_neg hqp])]
        exact hinv d hd
  · intro hinv hp hnodup
    by_cases hc : c ∈ (g.node p).necessaryChildren
    · intro d hd
      rw [removeNecessaryChild_len] at hd
      by_cases hdc : d = c
      · rw [removeNecessaryChild_count g p c hc d, if_pos hdc]
        have hdrop := parentRefCount_drop_one g _
          (removeNecessaryChild_len g p c) p d hp
          (fun q hq hqp => by
            rw [removeNecessaryChild_children g p c hc q, if_neg hqp])
          (by
            rw [removeNecessaryChild_children g p c hc p, if_pos rfl,
              hnodup.mem_erase_iff]
            simp [hdc])
          (hdc ▸ hc)
        rw [hinv d hd]
        omega
      · rw [removeNecessaryChild_count g p c hc d, if_neg hdc]
        rw [parentRefCount_pointwise g _ (removeNecessaryChild_len g p c) d
          (fun q hq => by
            rw [removeNecessaryChild_children g p c hc q]
            by_cases hqp : q = p
            · rw [if_pos hqp, hqp]
              exact List.mem_erase_of_ne hdc
            · rw [if_neg hqp])]
        exact hinv d hd
    · simp only [removeNecessaryChild]
      rw [if_neg hc]
      exact hinv

/-- Witness for C10 on the concrete two-node graph: its accounting invariant
holds and is preserved by adding node 0 as a necessary child of node 1. -/
theorem necessary_child_accounting_witness :
    CountInv (addNecessaryChild c6Graph 1 0) :=
  (necessary_child_accounting c6Graph 1 0).2.2.2.1 (by decide) (by decide)

/-! ## C5: heights and the clean-parent order -/

theorem SMHPres_refl (g : Graph) : SMHPres g g :=
  ⟨rfl, fun _ => rfl, fun _ => le_refl _, fun _ => ⟨rfl, rfl⟩,
    fun _ h => ⟨rfl, h⟩, fun _ hc => absurd hc (lt_irrefl _)⟩

theorem SMHPres_trans (a b c : Graph) (hab : SMHPres a b)
    (hbc : SMHPres b c) : SMHPres a c := by
  obtain ⟨l1, cp1, mo1, lr1, vi1, ra1⟩ := hab
  obtain ⟨l2, cp2, mo2, lr2, vi2, ra2⟩ := hbc
  refine ⟨l2.trans l1, fun j => (cp2 j).trans (cp1 j),
    fun j => (mo1 j).trans (mo2 j),
    fun j => ⟨(lr2 j).1.trans (lr1 j).1, (lr2 j).2.trans (lr1 j).2⟩,
    fun j hj => ?_, fun x hx p hp => ?_⟩
  · obtain ⟨h1, h2⟩ := vi1 j hj
    obtain ⟨h3, h4⟩ := vi2 j h2
    exact ⟨h3.trans h1, h4⟩
  · by_cases hb : (b.node x).height < (c.node x).height
    · exact ra2 x hb p hp
    · have hbx : (b.node x).height = (c.node x).height :=
        le_antisymm (mo2 x) (not_lt.mp hb)
      have hax : (a.node x).height < (b.node x).height := by
        rw [hbx]
        exact hx
      have hpb : p ∈ (b.node x).cleanParentsList := by
        rw [← cp2 x]
        exact hp
      calc (c.node x).height = (b.node x).height := hbx.symm
        _ < (b.node p).height := ra1 x hax p hpb
        _ ≤ (c.node p).height := mo2 p

theorem SMHPres_of_same (g g2 : Graph) (hlen : g2.len = g.len)
    (hnode : ∀ j,
      (g2.node j).cleanParentsList = (g.node j).cleanParentsList ∧
      (g2.node j).height = (g.node j).height ∧
      (g2.node j).lastUpdate = (g.node j).lastUpdate ∧
      (g2.node j).lastReady = (g.node j).lastReady ∧
      (g2.node j).visited = (g.node j).visited) :
    SMHPres g g2 := by
  refine ⟨hlen, fun j => (hnode j).1, fun j => le_of_eq (hnode j).2.1.symm,
    fun j => ⟨(hnode j).2.2.1, (hnode j).2.2.2.1⟩,
    fun j hj => ⟨(hnode j).2.1, by rw [(hnode j).2.2.2.2]; exact hj⟩,
    fun c hc => ?_⟩
  rw [(hnode c).2.1] at hc
  exact absurd hc (lt_irrefl _)

theorem foldl_graphBool_pres (P : Graph → Graph → Prop)
    (htrans : ∀ a b c, P a b → P b c → P a c)
    (step : Graph × Bool → Nat → Graph × Bool)
    (hstep : ∀ gb p, P gb.1 (step gb p).1)
    (hrefl : ∀ a, P a a) :
    ∀ (l : List Nat) (gb : Graph × Bool), P gb.1 (l.foldl step gb).1 := by
  intro l
  induction l with
  | nil =>
      intro gb
      simpa using hrefl gb.1
  | cons p rest ih =>
      intro gb
      rw [List.foldl_cons]
      exact htrans _ _ _ (hstep gb p) (ih (step gb p))

theorem foldl_graphBool_stable (Q : Graph → Prop)
    (step : Graph × Bool → Nat → Graph × Bool)
    (hstep : ∀ gb p, Q gb.1 → Q (step gb p).1) :
    ∀ (l : List Nat) (gb : Graph × Bool), Q gb.1 → Q (l.foldl step gb).1 := by
  intro l
  induction l with
  | nil =>
      intro gb h
      simpa using h
  | cons p rest ih =>
      intro gb h
      rw [List.foldl_cons]
      exact ih (step gb p) (hstep gb p h)

theorem foldl_graphBool_post (Q : Graph → Nat → Prop)
    (step : Graph × Bool → Nat → Graph × Bool)
    (hstable : ∀ gb p q, Q gb.1 q → Q (step gb p).1 q)
    (hok : ∀ gb p, (step gb p).2 = false →
      Q (step gb p).1 p ∧ gb.2 = false) :
    ∀ (l : List Nat) (gb : Graph × Bool),
      (l.foldl step gb).2 = false →
      gb.2 = false ∧ ∀ p ∈ l, Q (l.foldl step gb).1 p := by
  intro l
  induction l with
  | nil =>
      intro gb h
      refine ⟨by simpa using h, by simp⟩
  | cons p rest ih =>
      intro gb h
      rw [List.foldl_cons] at h ⊢
      obtain ⟨h1, h2⟩ := ih (step gb p) h
      obtain ⟨hq, hgb⟩ := hok gb p h1
      refine ⟨hgb, ?_⟩
      intro x hx
      rcases List.mem_cons.mp hx with hx | hx
      · rw [hx]
        exact foldl_graphBool_stable (fun g => Q g p) step
          (fun gb2 p2 => hstable gb2 p2 p) rest (step gb p) hq
      · exact h2 x hx

theorem setMinHeight_main : ∀ (fuel : Nat) (g : Graph) (n m : Nat)
    (g2 : Graph), setMinHeight g n m fuel = .ok g2 →
    SMHPres g g2 ∧ m ≤ (g2.node n).height := by
  intro fuel
  induction fuel with
  | zero =>
      intro g n m g2 h
      simp [setMinHeight] at h
  | succ fuel ih =>
      intro g n m g2 h
      simp only [setMinHeight] at h
      by_cases hv : (g.node n).visited = true
      · rw [if_pos hv] at h
        simp at h
      rw [if_neg hv] at h
      have hvf : (g.node n).visited = false := by simpa using hv
      set gA := g.modifyNode n fun nd => { nd with visited := true }
        with hgAdef
      have hgA_h : ∀ j, (gA.node j).height = (g.node j).height := fun j =>
        node_modify_keep (fun nd => nd.height) _ _ _ rfl j
      have hgA_cp : ∀ j,
          (gA.node j).cleanParentsList = (g.node j).cleanParentsList :=
        fun j => node_modify_keep (fun nd => nd.cleanParentsList) _ _ _ rfl j
      have hgA_lu : ∀ j, (gA.node j).lastUpdate = (g.node j).lastUpdate :=
        fun j => node_modify_keep (fun nd => nd.lastUpdate) _ _ _ rfl j
      have hgA_lr : ∀ j, (gA.node j).lastReady = (g.node j).lastReady :=
        fun j => node_modify_keep (fun nd => nd.lastReady) _ _ _ rfl j
      have hgA_vne : ∀ j, j ≠ n → (gA.node j).visited = (g.node j).visited :=
        fun j hj => by rw [node_modifyNode_ne _ _ _ _ hj]
      have hgA_vn : (gA.node n).visited = true := by
        rw [node_modifyNode_self]
      by_cases hlt : (gA.node n).height < m
      · rw [if_pos hlt] at h
        set gB := gA.modifyNode n fun nd => { nd with height := m }
          with hgBdef
        have hgB_hn : (gB.node n).height = m := by
          rw [node_modifyNode_self]
        have hgB_hne : ∀ j, j ≠ n → (gB.node j).height = (gA.node j).height :=
          fun j hj => by rw [node_modifyNode_ne _ _ _ _ hj]
        have hgB_cp : ∀ j,
            (gB.node j).cleanParentsList = (gA.node j).cleanParentsList :=
          fun j =>
            node_modify_keep (fun nd => nd.cleanParentsList) _ _ _ rfl j
        have hgB_lu : ∀ j, (gB.node j).lastUpdate = (gA.node j).lastUpdate :=
          fun j => node_modify_keep (fun nd => nd.lastUpdate) _ _ _ rfl j
        have hgB_lr : ∀ j, (gB.node j).lastReady = (gA.node j).lastReady :=
          fun j => node_modify_keep (fun nd => nd.lastReady) _ _ _ rfl j
        have hgB_v : ∀ j, (gB.node j).visited = (gA.node j).visited :=
          fun j => node_modify_keep (fun nd => nd.visited) _ _ _ rfl j
        set step := fun (acc : Graph × Bool) (p : Nat) =>
          match setMinHeight acc.1 p (m + 1) fuel with
          | .ok g3 => (g3, acc.2)
          | .error _ => (acc.1, true)
          with hstepdef
        have hstep : ∀ (gb : Graph × Bool) (p : Nat),
            SMHPres gb.1 (step gb p).1 := by
          intro gb p
          cases hsm : setMinHeight gb.1 p (m + 1) fuel with
          | ok g3 =>
              have h1 : (step gb p).1 = g3 := by simp [hstepdef, hsm]
              rw [h1]
              exact (ih _ _ _ _ hsm).1
          | error e =>
              have h1 : (step gb p).1 = gb.1 := by simp [hstepdef, hsm]
              rw [h1]
              exact SMHPres_refl _
        have hstepQ : ∀ (gb : Graph × Bool) (p : Nat),
            (step gb p).2 = false →
            m + 1 ≤ ((step gb p).1.node p).height ∧ gb.2 = false := by
          intro gb p hfalse
          cases hsm : setMinHeight gb.1 p (m + 1) fuel with
          | ok g3 =>
              have h1 : (step gb p).1 = g3 := by simp [hstepdef, hsm]
              have h2 : (step gb p).2 = gb.2 := by simp [hstepdef, hsm]
              rw [h2] at hfalse
              rw [h1]
              exact ⟨(ih _ _ _ _ hsm).2, hfalse⟩
          | error e =>
              have h2 : (step gb p).2 = true := by simp [hstepdef, hsm]
              rw [h2] at hfalse
              simp at hfalse
        set ps := (gB.node n).cleanParentsList with hpsdef
        set r := ps.foldl step (gB, false) with hrdef
        have hfold : SMHPres gB r.1 :=
          foldl_graphBool_pres SMHPres SMHPres_trans step hstep SMHPres_refl
            ps (gB, false)
        by_cases hr2 : r.2 = true
        · rw [if_pos hr2] at h
          simp at h
        rw [if_neg hr2] at h
        have hr2f : r.2 = false := by simpa using hr2
        have hpost := foldl_graphBool_post
          (fun g3 p => m + 1 ≤ (g3.node p).height) step
          (fun gb p q hq =>
            le_trans hq ((hstep gb p).2.2.1 q))
          hstepQ ps (gB, false) hr2f
        obtain ⟨flen, fcp, fmo, flr, fvi, fra⟩ := hfold
        have hg2 : g2 = r.1.modifyNode n fun nd => { nd with visited := false } :=
          (Except.ok.inj h).symm
        subst hg2
        have hF_h : ∀ j, ((r.1.modifyNode n fun nd =>
            { nd with visited := false }).node j).height = (r.1.node j).height :=
          fun j => node_modify_keep (fun nd => nd.height) _ _ _ rfl j
        have hF_cp : ∀ j, ((r.1.modifyNode n fun nd =>
            { nd with visited := false }).node j).cleanParentsList
            = (r.1.node j).cleanParentsList :=
          fun j =>
            node_modify_keep (fun nd => nd.cleanParentsList) _ _ _ rfl j
        have hF_lu : ∀ j, ((r.1.modifyNode n fun nd =>
            { nd with visited := false }).node j).lastUpdate
            = (r.1.node j).lastUpdate :=
          fun j => node_modify_keep (fun nd => nd.lastUpdate) _ _ _ rfl j
        have hF_lr : ∀ j, ((r.1.modifyNode n fun nd =>
            { nd with visited := false }).node j).lastReady
            = (r.1.node j).lastReady :=
          fun j => node_modify_keep (fun nd => nd.lastReady) _ _ _ rfl j
        have hF_vne : ∀ j, j ≠ n → ((r.1.modifyNode n fun nd =>
            { nd with visited := false }).node j).visited
            = (r.1.node j).visited :=
          fun j hj => by rw [node_modifyNode_ne _ _ _ _ hj]
        have hrn_frozen : (r.1.node n).height = (gB.node n).height ∧
            (r.1.node n).visited = true := by
          apply fvi
          rw [hgB_v n, hgA_vn]
        have hrn_h : (r.1.node n).height = m := by
          rw [hrn_frozen.1, hgB_hn]
        refine ⟨⟨flen.trans rfl, ?_, ?_, ?_, ?_, ?_⟩, ?_⟩
        · intro j
          rw [hF_cp j, fcp j, hgB_cp j, hgA_cp j]
        · intro j
          rw [hF_h j]
          by_cases hj : j = n
          · subst hj
            rw [hrn_h]
            have := hgA_h j
            omega
          · have := fmo j
            rw [hgB_hne j hj, hgA_h j] at this
            exact this
        · intro j
          constructor
          · rw [hF_lu j, flr j |>.1, hgB_lu j, hgA_lu j]
          · rw [hF_lr j, flr j |>.2, hgB_lr j, hgA_lr j]
        · intro j hj
          have hjn : j ≠ n := fun e => hv (e ▸ hj)
          have h1 : (gB.node j).visited = true := by
            rw [hgB_v j, hgA_vne j hjn]
            exact hj
          obtain ⟨h2, h3⟩ := fvi j h1
          constructor
          · rw [hF_h j, h2, hgB_hne j hjn, hgA_h j]
          · rw [hF_vne j hjn, h3]
        · intro c hc p hp
          rw [hF_h c] at hc ⊢
          rw [hF_cp c] at hp
          rw [hF_h p]
          by_cases hcn : c = n
          · subst hcn
            rw [hrn_h] at hc ⊢
            have hp2 : p ∈ ps := by
              rw [hpsdef, ← fcp c]
              exact hp
            have hpp : m + 1 ≤ (r.1.node p).height := by
              rw [hrdef]
              exact hpost.2 p hp2
            omega
          · by_cases hUp : (gB.node c).height < (r.1.node c).height
            · refine fra c hUp p ?_
              exact hp
            · have heq : (r.1.node c).height = (gB.node c).height :=
                le_antisymm (not_lt.mp hUp) (fmo c)
              rw [heq, hgB_hne c hcn, hgA_h c] at hc
              exact absurd hc (lt_irrefl _)
        · rw [hF_h n, hrn_h]
      · rw [if_neg hlt] at h
        have hg2 : g2 = gA.modifyNode n fun nd => { nd with visited := false } :=
          (Except.ok.inj h).symm
        subst hg2
        have hsame : ∀ j,
            ((gA.modifyNode n fun nd =>
              { nd with visited := false }).node j).cleanParentsList
              = (g.node j).cleanParentsList ∧
            ((gA.modifyNode n fun nd =>
              { nd with visited := false }).node j).height
              = (g.node j).height ∧
            ((gA.modifyNode n fun nd =>
              { nd with visited := false }).node j).lastUpdate
              = (g.node j).lastUpdate ∧
            ((gA.modifyNode n fun nd =>
              { nd with visited := false }).node j).lastReady
              = (g.node j).lastReady ∧
            ((gA.modifyNode n fun nd =>
              { nd with visited := false }).node j).visited
              = (g.node j).visited := by
          intro j
          refine ⟨?_, ?_, ?_, ?_, ?_⟩
          · rw [node_modify_keep (fun nd => nd.cleanParentsList) _ _ _ rfl j,
              hgA_cp j]
          · rw [node_modify_keep (fun nd => nd.height) _ _ _ rfl j, hgA_h j]
          · rw [node_modify_keep (fun nd => nd.lastUpdate) _ _ _ rfl j,
              hgA_lu j]
          · rw [node_modify_keep (fun nd => nd.lastReady) _ _ _ rfl j,
              hgA_lr j]
          · by_cases hj : j = n
            · subst hj
              rw [node_modifyNode_self, hvf]
            · rw [node_modifyNode_ne _ _ _ _ hj, hgA_vne j hj]
        refine ⟨SMHPres_of_same _ _ rfl hsame, ?_⟩
        rw [(hsame n).2.1]
        have := hgA_h n
        omega

theorem ensureHeightIncreases_pres (g : Graph) (child parent fuel : Nat)
    (g2 : Graph) (b : Bool)
    (h : ensureHeightIncreases g child parent fuel = .ok (g2, b)) :
    g2.len = g.len ∧
    (∀ j, (g2.node j).cleanParentsList = (g.node j).cleanParentsList) ∧
    (∀ j, (g.node j).height ≤ (g2.node j).height) ∧
    (∀ j, (g2.node j).lastUpdate = (g.node j).lastUpdate ∧
      (g2.node j).lastReady = (g.node j).lastReady) ∧
    (∀ c, (g.node c).height < (g2.node c).height →
      ∀ p ∈ (g2.node c).cleanParentsList,
        (g2.node c).height < (g2.node p).height) := by
  unfold ensureHeightIncreases at h
  split at h
  · have h2 := Except.ok.inj h
    have hg : g2 = g := (congrArg Prod.fst h2).symm
    subst hg
    exact ⟨rfl, fun j => rfl, fun j => le_refl _, fun j => ⟨rfl, rfl⟩,
      fun c hc => absurd hc (lt_irrefl _)⟩
  · simp only [] at h
    set gA := g.modifyNode child fun nd => { nd with visited := true }
      with hgAdef
    have hgA_h : ∀ j, (gA.node j).height = (g.node j).height := fun j =>
      node_modify_keep (fun nd => nd.height) _ _ _ rfl j
    have hgA_cp : ∀ j,
        (gA.node j).cleanParentsList = (g.node j).cleanParentsList :=
      fun j => node_modify_keep (fun nd => nd.cleanParentsList) _ _ _ rfl j
    have hgA_lu : ∀ j, (gA.node j).lastUpdate = (g.node j).lastUpdate :=
      fun j => node_modify_keep (fun nd => nd.lastUpdate) _ _ _ rfl j
    have hgA_lr : ∀ j, (gA.node j).lastReady = (g.node j).lastReady :=
      fun j => node_modify_keep (fun nd => nd.lastReady) _ _ _ rfl j
    cases hsm : setMinHeight gA parent ((gA.node child).height + 1) fuel with
    | error e =>
        rw [hsm] at h
        simp at h
    | ok gS =>
        rw [hsm] at h
        have h2 := Except.ok.inj h
        have hg : g2 = gS.modifyNode child fun nd =>
            { nd with visited := false } := (congrArg Prod.fst h2).symm
        subst hg
        obtain ⟨⟨slen, scp, smo, slr, _, sra⟩, _⟩ := setMinHeight_main _ _ _ _ _ hsm
        have hF_h : ∀ j, ((gS.modifyNode child fun nd =>
            { nd with visited := false }).node j).height = (gS.node j).height :=
          fun j => node_modify_keep (fun nd => nd.height) _ _ _ rfl j
        have hF_cp : ∀ j, ((gS.modifyNode child fun nd =>
            { nd with visited := false }).node j).cleanParentsList
            = (gS.node j).cleanParentsList :=
          fun j =>
            node_modify_keep (fun nd => nd.cleanParentsList) _ _ _ rfl j
        have hF_lu : ∀ j, ((gS.modifyNode child fun nd =>
            { nd with visited := false }).node j).lastUpdate
            = (gS.node j).lastUpdate :=
          fun j => node_modify_keep (fun nd => nd.lastUpdate) _ _ _ rfl j
        have hF_lr : ∀ j, ((gS.modifyNode child fun nd =>
            { nd with visited := false }).node j).lastReady
            = (gS.node j).lastReady :=
          fun j => node_modify_keep (fun nd => nd.lastReady) _ _ _ rfl j
        refine ⟨slen.trans rfl, ?_, ?_, ?_, ?_⟩
        · intro j
          rw [hF_cp j, scp j, hgA_cp j]
        · intro j
          rw [hF_h j, ← hgA_h j]
          exact smo j
        · intro j
          exact ⟨by rw [hF_lu j, (slr j).1, hgA_lu j],
            by rw [hF_lr j, (slr j).2, hgA_lr j]⟩
        · intro c hc p hp
          rw [hF_h c] at hc ⊢
          rw [hF_cp c] at hp
          rw [hF_h p]
          by_cases hUp : (gA.node c).height < (gS.node c).height
          · exact sra c hUp p hp
          · have heq : (gS.node c).height = (gA.node c).height :=
              le_antisymm (not_lt.mp hUp) (smo c)
            rw [heq, hgA_h c] at hc
            exact absurd hc (lt_irrefl _)

theorem ensureHeightIncreases_true (g : Graph) (child parent fuel : Nat)
    (g2 : Graph)
    (h : ensureHeightIncreases g child parent fuel = .ok (g2, true)) :
    g2 = g ∧ (g.node child).height < (g.node parent).height := by
  unfold ensureHeightIncreases at h
  split at h
  · next hlt =>
      have h2 := Except.ok.inj h
      exact ⟨(congrArg Prod.fst h2).symm, hlt⟩
  · next hlt =>
      simp only [] at h
      cases hsm : setMinHeight
          (g.modifyNode child fun nd => { nd with visited := true }) parent
          (((g.modifyNode child fun nd =>
            { nd with visited := true }).node child).height + 1) fuel with
      | ok gS =>
          rw [hsm] at h
          have h2 := Except.ok.inj h
          exact absurd (congrArg Prod.snd h2) (by simp)
      | error e =>
          rw [hsm] at h
          simp at h

theorem queueRecalc_keep (g : Graph) (i : Nat) (g2 : Graph)
    (h : g.queueRecalc i = .ok g2) :
    g2.len = g.len ∧ ∀ j,
      (g2.node j).height = (g.node j).height ∧
      (g2.node j).cleanParentsList = (g.node j).cleanParentsList ∧
      (g2.node j).lastUpdate = (g.node j).lastUpdate ∧
      (g2.node j).lastReady = (g.node j).lastReady := by
  unfold Graph.queueRecalc at h
  split at h
  · obtain rfl := Except.ok.inj h
    exact ⟨rfl, fun j => ⟨rfl, rfl, rfl, rfl⟩⟩
  · simp only [] at h
    split at h
    · exact absurd h (by simp)
    · split at h
      · obtain rfl := Except.ok.inj h
        refine ⟨rfl, fun j => ?_⟩
        by_cases hj : j = i
        · subst hj
          simp [Graph.node, Graph.modifyNode, Graph.setNode,
            NodeData.cleanParentsList]
        · simp [Graph.node, Graph.modifyNode, Graph.setNode, hj]
      · obtain rfl := Except.ok.inj h
        refine ⟨rfl, fun j => ?_⟩
        by_cases hj : j = i
        · subst hj
          simp [Graph.node, Graph.modifyNode, Graph.setNode,
            NodeData.cleanParentsList]
        · simp [Graph.node, Graph.modifyNode, Graph.setNode, hj]

theorem addCleanParent_height (g : Graph) (s p j : Nat) :
    ((addCleanParent g s p).node j).height = (g.node j).height := by
  unfold addCleanParent
  exact node_modify_keep _ _ _ _ (by split <;> rfl) _

theorem addNecessaryChild_height (g : Graph) (s c j : Nat) :
    ((addNecessaryChild g s c).node j).height = (g.node j).height := by
  simp only [addNecessaryChild]
  split
  · rfl
  · rw [node_modify_keep (fun n => n.height) _ _ _ rfl,
      node_modify_keep (fun n => n.height) _ _ _ rfl]

theorem addCleanParent_cp_ne (g : Graph) (s p j : Nat) (h : j ≠ s) :
    ((addCleanParent g s p).node j).cleanParentsList
      = (g.node j).cleanParentsList := by
  unfold addCleanParent
  rw [node_modifyNode_ne _ _ _ _ h]

theorem heightInv_of_bundle (g g2 : Graph)
    (hlen : g2.len = g.len)
    (hcp : ∀ j, (g2.node j).cleanParentsList = (g.node j).cleanParentsList)
    (hmo : ∀ j, (g.node j).height ≤ (g2.node j).height)
    (hra : ∀ c, (g.node c).height < (g2.node c).height →
      ∀ p ∈ (g2.node c).cleanParentsList,
        (g2.node c).height < (g2.node p).height)
    (hinv : HeightInv g) : HeightInv g2 := by
  intro c hc p hp
  by_cases hr : (g.node c).height < (g2.node c).height
  · exact hra c hr p hp
  · have he : (g2.node c).height = (g.node c).height :=
      le_antisymm (not_lt.mp hr) (hmo c)
    rw [hcp c] at hp
    have hclen : c < g.len := by rw [← hlen]; exact hc
    calc (g2.node c).height = (g.node c).height := he
      _ < (g.node p).height := hinv c hclen p hp
      _ ≤ (g2.node p).height := hmo p

theorem heightInv_of_eqs (g g2 : Graph) (hlen : g2.len = g.len)
    (hh : ∀ j, (g2.node j).height = (g.node j).height)
    (hcp : ∀ j, (g2.node j).cleanParentsList = (g.node j).cleanParentsList)
    (hinv : HeightInv g) : HeightInv g2 := by
  intro c hc p hp
  rw [hh c, hh p]
  rw [hcp c] at hp
  exact hinv c (by rw [← hlen]; exact hc) p hp

/-- C5 counterexample: the at-rest height invariant over recorded
clean-parent entries does not survive free-list reuse.  After one engineGet
the var node (0) lists the map node (1), at height 1, as its clean parent
and the invariant holds; dropping the map's only handle frees node 1 but
leaves node 0's entry in place and the invariant still holds; the very next
anchor insertion (an engine operation) reuses node 1's storage with height
reset to 0, so the recorded edge now has height(parent) = height(child) = 0
and the invariant is violated. -/
theorem height_inv_broken_by_reuse :
    HeightInv c5Graph2 ∧ HeightInv c5Graph3 ∧ ¬ HeightInv c5Graph4 ∧
    (c5Graph4.node 0).cleanParentsList = [1] ∧
    (c5Graph4.node 0).height = 0 ∧ (c5Graph4.node 1).height = 0 := by
  exact ⟨by decide, by decide, by decide, rfl, rfl, rfl⟩

/-- C5 amended: a successful ctx.request preserves the height invariant over
the recorded clean-parent edges, and no node's height ever decreases across
it (heights are monotonically non-decreasing over the node's active life).
The invariant can only be broken by free-list reuse resetting a freed node's
height underneath a stale clean-parent entry, as the counterexample shows. -/
theorem request_preserves_height_inv (g : Graph) (ctx : Ctx) (k : NodeKey)
    (nec : Bool) (fuel : Nat) (g2 : Graph) (ctx2 : Ctx) (po : Poll)
    (hreq : request g ctx k nec fuel = .ok (g2, ctx2, po))
    (hinv : HeightInv g) :
    HeightInv g2 ∧ ∀ j, (g.node j).height ≤ (g2.node j).height := by
  unfold request at hreq
  cases hk : g.get k with
  | none =>
      rw [hk] at hreq
      simp at hreq
  | some child =>
    rw [hk] at hreq
    simp only [] at hreq
    cases hehi : ensureHeightIncreases g child ctx.node fuel with
    | error e =>
        rw [hehi] at hreq
        cases e <;> simp at hreq
    | ok pr =>
      obtain ⟨gE, hai⟩ := pr
      rw [hehi] at hreq
      simp only [] at hreq
      obtain ⟨elen, ecp, emo, _, era⟩ :=
        ensureHeightIncreases_pres g child ctx.node fuel gE hai hehi
      have hinvE : HeightInv gE := heightInv_of_bundle g gE elen ecp emo era hinv
      by_cases hready : (gE.node child).recalcState ≠ RecalcState.ready
      · rw [if_pos hready] at hreq
        cases hq : gE.queueRecalc child with
        | error e =>
            rw [hq] at hreq
            simp at hreq
        | ok gQ =>
            rw [hq] at hreq
            simp only [] at hreq
            obtain ⟨qlen, qkeep⟩ := queueRecalc_keep gE child gQ hq
            by_cases hnn : (nec && decide (checkObservedRaw (gE.node ctx.node)
                ≠ ObservedState.unnecessary)) = true
            · rw [if_pos hnn] at hreq
              simp only [Except.ok.injEq, Prod.mk.injEq] at hreq
              obtain ⟨h1, _, _⟩ := hreq
              subst h1
              have hlen2 : (addNecessaryChild gQ ctx.node child).len = g.len := by
                rw [addNecessaryChild_len, qlen, elen]
              have hh2 : ∀ j, ((addNecessaryChild gQ ctx.node child).node j).height
                  = (gE.node j).height := fun j => by
                rw [addNecessaryChild_height, (qkeep j).1]
              have hcp2 : ∀ j,
                  ((addNecessaryChild gQ ctx.node child).node j).cleanParentsList
                  = (gE.node j).cleanParentsList := fun j => by
                rw [addNecessaryChild_cleanParentsList, (qkeep j).2.1]
              refine ⟨heightInv_of_eqs gE _ (by rw [addNecessaryChild_len, qlen])
                hh2 hcp2 hinvE, fun j => ?_⟩
              rw [hh2 j]
              exact emo j
            · rw [if_neg hnn] at hreq
              simp only [Except.ok.injEq, Prod.mk.injEq] at hreq
              obtain ⟨h1, _, _⟩ := hreq
              subst h1
              refine ⟨heightInv_of_eqs gE _ qlen (fun j => (qkeep j).1)
                (fun j => (qkeep j).2.1) hinvE, fun j => ?_⟩
              rw [(qkeep j).1]
              exact emo j
      · rw [if_neg hready] at hreq
        by_cases hai2 : (!hai) = true
        · rw [if_pos hai2] at hreq
          simp only [Except.ok.injEq, Prod.mk.injEq] at hreq
          obtain ⟨h1, _, _⟩ := hreq
          subst h1
          exact ⟨hinvE, emo⟩
        · rw [if_neg hai2] at hreq
          have haiT : hai = true := by
            revert hai2
            cases hai <;> simp
          subst haiT
          obtain ⟨hgE, hlt⟩ := ensureHeightIncreases_true g child ctx.node fuel gE hehi
          rw [hgE] at hreq
          set gCP := addCleanParent g child ctx.node with hgCPdef
          have hcp_h : ∀ j, (gCP.node j).height = (g.node j).height := fun j =>
            addCleanParent_height g child ctx.node j
          have hinvCP : HeightInv gCP := by
            intro c hc p hp
            rw [hcp_h c, hcp_h p]
            by_cases hcc : c = child
            · subst hcc
              have hmem : p ∈ ctx.node :: (g.node c).cleanParentsList :=
                (addCleanParent_self_perm g c ctx.node).mem_iff.mp hp
              rcases List.mem_cons.mp hmem with hm | hm
              · subst hm
                exact hlt
              · exact hinv c hc p hm
            · rw [addCleanParent_cp_ne g child ctx.node c hcc] at hp
              exact hinv c hc p hp
          by_cases hnn : (nec && decide (checkObservedRaw (g.node ctx.node)
              ≠ ObservedState.unnecessary)) = true
          · rw [if_pos hnn] at hreq
            simp only [Except.ok.injEq, Prod.mk.injEq] at hreq
            obtain ⟨h1, _, _⟩ := hreq
            subst h1
            have hh2 : ∀ j, ((addNecessaryChild gCP ctx.node child).node j).height
                = (gCP.node j).height := fun j =>
              addNecessaryChild_height gCP ctx.node child j
            refine ⟨heightInv_of_eqs gCP _ (by rw [addNecessaryChild_len]) hh2
              (fun j => addNecessaryChild_cleanParentsList gCP ctx.node child j)
              hinvCP, fun j => ?_⟩
            rw [hh2 j, hcp_h j]
          · rw [if_neg hnn] at hreq
            simp only [Except.ok.injEq, Prod.mk.injEq] at hreq
            obtain ⟨h1, _, _⟩ := hreq
            subst h1
            exact ⟨hinvCP, fun j => le_of_eq (hcp_h j).symm⟩

/-- Witness for C5's amended theorem: the concrete Ready-edge request on the
two-node graph preserves the invariant. -/
theorem request_preserves_height_inv_witness :
    HeightInv c5ReqResult ∧
      ∀ j, (c6Graph.node j).height ≤ (c5ReqResult.node j).height :=
  request_preserves_height_inv c6Graph ⟨1, false⟩ ⟨0, 0⟩ true 8 c5ReqResult
    ⟨1, false⟩ Poll.unchanged rfl (by decide)

/-! ## C8: generation stamps -/

theorem GenKeep_refl (g : Graph) : GenKeep g g := ⟨rfl, fun _ => ⟨rfl, rfl⟩⟩

theorem GenKeep_trans (a b c : Graph) (h1 : GenKeep a b) (h2 : GenKeep b c) :
    GenKeep a c :=
  ⟨h2.1.trans h1.1, fun j => ⟨(h2.2 j).1.trans (h1.2 j).1,
    (h2.2 j).2.trans (h1.2 j).2⟩⟩

theorem GenKeep_modify (g : Graph) (i : Nat) (f : NodeData → NodeData)
    (h1 : (f (g.node i)).lastUpdate = (g.node i).lastUpdate)
    (h2 : (f (g.node i)).lastReady = (g.node i).lastReady) :
    GenKeep g (g.modifyNode i f) :=
  ⟨rfl, fun j => ⟨node_modify_keep (fun nd => nd.lastUpdate) g i f h1 j,
    node_modify_keep (fun nd => nd.lastReady) g i f h2 j⟩⟩

theorem GenKeep_of_nodes (g g2 : Graph) (hn : g2.nodes = g.nodes)
    (hl : g2.len = g.len) : GenKeep g g2 := by
  refine ⟨hl, fun j => ?_⟩
  unfold Graph.node
  rw [hn]
  exact ⟨rfl, rfl⟩

theorem GenKeep_foldl {α : Type} (f : Graph → α → Graph)
    (hf : ∀ g x, GenKeep g (f g x)) :
    ∀ (l : List α) (g : Graph), GenKeep g (l.foldl f g) := by
  intro l
  induction l with
  | nil =>
      intro g
      exact GenKeep_refl g
  | cons x xs ih =>
      intro g
      rw [List.foldl_cons]
      exact GenKeep_trans _ _ _ (hf g x) (ih (f g x))

theorem GenKeep_foldlM (f : Graph → Nat → Except EngineError Graph)
    (hf : ∀ g x g2, f g x = .ok g2 → GenKeep g g2) :
    ∀ (l : List Nat) (g g2 : Graph),
      List.foldlM f g l = .ok g2 → GenKeep g g2 := by
  intro l
  induction l with
  | nil =>
      intro g g2 h
      rw [List.foldlM_nil] at h
      obtain rfl := Except.ok.inj h
      exact GenKeep_refl g
  | cons x xs ih =>
      intro g g2 h
      rw [List.foldlM_cons] at h
      cases hfx : f g x with
      | error e =>
          rw [hfx] at h
          simp [Bind.bind, Except.bind] at h
      | ok gm =>
          rw [hfx] at h
          exact GenKeep_trans _ _ _ (hf g x gm hfx) (ih gm g2 h)

theorem EngineKeep_foldlM {α : Type} (P : Engine → Engine → Prop)
    (hrefl : ∀ a, P a a) (htrans : ∀ a b c, P a b → P b c → P a c)
    (f : Engine → α → Except EngineError Engine)
    (hf : ∀ e x e2, f e x = .ok e2 → P e e2) :
    ∀ (l : List α) (e e2 : Engine),
      List.foldlM f e l = .ok e2 → P e e2 := by
  intro l
  induction l with
  | nil =>
      intro e e2 h
      rw [List.foldlM_nil] at h
      obtain rfl := Except.ok.inj h
      exact hrefl e
  | cons x xs ih =>
      intro e e2 h
      rw [List.foldlM_cons] at h
      cases hfx : f e x with
      | error err =>
          rw [hfx] at h
          simp [Bind.bind, Except.bind] at h
      | ok em =>
          rw [hfx] at h
          exact htrans _ _ _ (hf e x em hfx) (ih em e2 h)

theorem setMinHeight_genKeep (fuel : Nat) (g : Graph) (n m : Nat)
    (g2 : Graph) (h : setMinHeight g n m fuel = .ok g2) : GenKeep g g2 := by
  obtain ⟨⟨hlen, _, _, hlr, _, _⟩, _⟩ := setMinHeight_main fuel g n m g2 h
  exact ⟨hlen, hlr⟩

theorem ensureHeightIncreases_genKeep (g : Graph) (child parent fuel : Nat)
    (g2 : Graph) (b : Bool)
    (h : ensureHeightIncreases g child parent fuel = .ok (g2, b)) :
    GenKeep g g2 := by
  obtain ⟨hlen, _, _, hlr, _⟩ :=
    ensureHeightIncreases_pres g child parent fuel g2 b h
  exact ⟨hlen, hlr⟩

theorem queueRecalc_genKeep (g : Graph) (i : Nat) (g2 : Graph)
    (h : g.queueRecalc i = .ok g2) : GenKeep g g2 := by
  obtain ⟨hlen, hk⟩ := queueRecalc_keep g i g2 h
  exact ⟨hlen, fun j => ⟨(hk j).2.2.1, (hk j).2.2.2⟩⟩

theorem addCleanParent_genKeep (g : Graph) (s p : Nat) :
    GenKeep g (addCleanParent g s p) :=
  ⟨rfl, fun j => ⟨addCleanParent_lastUpdate g s p j,
    addCleanParent_lastReady g s p j⟩⟩

theorem addNecessaryChild_genKeep (g : Graph) (s c : Nat) :
    GenKeep g (addNecessaryChild g s c) :=
  ⟨addNecessaryChild_len g s c, fun j =>
    ⟨addNecessaryChild_lastUpdate g s c j,
      addNecessaryChild_lastReady g s c j⟩⟩

theorem removeNecessaryChild_genKeep (g : Graph) (s c : Nat) :
    GenKeep g (removeNecessaryChild g s c) := by
  simp only [removeNecessaryChild]
  split
  · exact GenKeep_trans _ _ _ (GenKeep_modify _ _ _ rfl rfl)
      (GenKeep_modify _ _ _ rfl rfl)
  · exact GenKeep_refl g

theorem setComp_genKeep (g : Graph) (i : Nat) (c : Comp) :
    GenKeep g (g.setComp i c) :=
  GenKeep_modify _ _ _ rfl rfl

theorem needsRecalc_genKeep (g : Graph) (i : Nat) :
    GenKeep g (needsRecalc g i) := by
  unfold needsRecalc
  split
  · exact GenKeep_refl g
  · exact GenKeep_modify _ _ _ rfl rfl

theorem drainCleanParents_genKeep (g : Graph) (i : Nat) :
    GenKeep g (drainCleanParents g i).1 :=
  GenKeep_modify _ _ _ rfl rfl

theorem drainNecessaryChildren_genKeep (g : Graph) (i : Nat) :
    GenKeep g (drainNecessaryChildren g i).1 := by
  unfold drainNecessaryChildren
  exact GenKeep_trans _ _ _
    (GenKeep_foldl _ (fun g2 c => GenKeep_modify g2 c _ rfl rfl) _ g)
    (GenKeep_modify _ _ _ rfl rfl)

theorem dequeueCalc_genKeep (g : Graph) (i : Nat) :
    GenKeep g (dequeueCalc g i) := by
  unfold dequeueCalc
  split
  · exact GenKeep_refl g
  · exact ⟨rfl, fun _ => ⟨rfl, rfl⟩⟩

theorem free_genKeep (g : Graph) (ptr : Nat) : GenKeep g (free g ptr) := by
  unfold free
  refine GenKeep_trans _ _ _ (drainNecessaryChildren_genKeep g ptr) ?_
  refine GenKeep_trans _ _ _ (drainCleanParents_genKeep _ ptr) ?_
  refine GenKeep_trans _ _ _ (dequeueCalc_genKeep _ ptr) ?_
  refine GenKeep_trans _ _ _ (⟨rfl, fun _ => ⟨rfl, rfl⟩⟩ :
    GenKeep _ _) ?_
  exact GenKeep_modify _ _ _ rfl rfl

theorem handleClone_genKeep (g : Graph) (k : NodeKey) :
    GenKeep g (handleClone g k) := by
  unfold handleClone
  split
  · exact GenKeep_modify _ _ _ rfl rfl
  · exact GenKeep_refl g

theorem handleDrop_genKeep (g : Graph) (k : NodeKey) :
    GenKeep g (handleDrop g k) := by
  unfold handleDrop
  split
  · simp only []
    split
    · exact GenKeep_trans _ _ _ (GenKeep_modify _ _ _ rfl rfl)
        (free_genKeep _ k.ptr)
    · exact GenKeep_modify _ _ _ rfl rfl
  · exact GenKeep_refl g

theorem recalcPopNextGo_genKeep : ∀ (fuel : Nat) (g : Graph),
    GenKeep g (recalcPopNextGo g fuel).1 := by
  intro fuel
  induction fuel with
  | zero =>
      intro g
      exact ⟨rfl, fun _ => ⟨rfl, rfl⟩⟩
  | succ fuel ih =>
      intro g
      rw [recalcPopNextGo]
      cases hb : g.recalcQueues.getD g.recalcMinHeight [] with
      | cons i rest =>
          simp only []
          exact GenKeep_trans _ _ _
            (⟨rfl, fun _ => ⟨rfl, rfl⟩⟩ : GenKeep g _)
            (GenKeep_modify _ _ _ rfl rfl)
      | nil =>
          simp only []
          exact GenKeep_trans _ _ _
            (⟨rfl, fun _ => ⟨rfl, rfl⟩⟩ : GenKeep g _) (ih _)

theorem recalcPopNext_genKeep (g : Graph) :
    GenKeep g g.recalcPopNext.1 :=
  recalcPopNextGo_genKeep _ g

theorem genInvG_of_keep (g g2 : Graph) (hk : GenKeep g g2)
    (hinv : GenInvG g) : GenInvG g2 := by
  intro j hj
  rw [(hk.2 j).1, (hk.2 j).2]
  exact hinv j (by rw [← hk.1]; exact hj)

theorem genBoundG_of_keep (g g2 : Graph) (gen : Nat) (hk : GenKeep g g2)
    (hb : GenBoundG g gen) : GenBoundG g2 gen := by
  refine ⟨hb.1, fun j hj => ?_⟩
  rw [(hk.2 j).1, (hk.2 j).2]
  exact hb.2 j (by rw [← hk.1]; exact hj)

theorem optGenLE_mono (a : Option Nat) (x y : Nat)
    (h : optGenLE a (some x) = true) (hxy : x ≤ y) :
    optGenLE a (some y) = true := by
  cases a with
  | none => rfl
  | some v =>
      simp [optGenLE] at h ⊢
      omega

theorem increment_ok (g gen2 : Nat) (h : Generation.increment g = some gen2)
    (hb : g < u64Mod) : gen2 = g + 1 ∧ gen2 < u64Mod ∧ g ≤ gen2 := by
  unfold Generation.increment at h
  by_cases h0 : (g + 1) % u64Mod = 0
  · simp [h0] at h
  · simp only [h0, if_neg, if_false] at h
    have h1 : (g + 1) % u64Mod = gen2 := by
      simpa using h
    rcases Nat.lt_or_ge (g + 1) u64Mod with hlt | hge
    · rw [Nat.mod_eq_of_lt hlt] at h1
      omega
    · have he : g + 1 = u64Mod := by omega
      rw [he, Nat.mod_self] at h1
      subst h1
      exact absurd (by rw [he, Nat.mod_self]) h0

theorem request_genKeep (g : Graph) (ctx : Ctx) (k : NodeKey)
    (nec : Bool) (fuel : Nat) (g2 : Graph) (ctx2 : Ctx) (po : Poll)
    (hreq : request g ctx k nec fuel = .ok (g2, ctx2, po)) :
    GenKeep g g2 := by
  unfold request at hreq
  cases hk : g.get k with
  | none =>
      rw [hk] at hreq
      simp at hreq
  | some child =>
    rw [hk] at hreq
    simp only [] at hreq
    cases hehi : ensureHeightIncreases g child ctx.node fuel with
    | error e =>
        rw [hehi] at hreq
        cases e <;> simp at hreq
    | ok pr =>
      obtain ⟨gE, hai⟩ := pr
      rw [hehi] at hreq
      simp only [] at hreq
      have hE := ensureHeightIncreases_genKeep g child ctx.node fuel gE hai hehi
      by_cases hready : (gE.node child).recalcState ≠ RecalcState.ready
      · rw [if_pos hready] at hreq
        cases hq : gE.queueRecalc child with
        | error e =>
            rw [hq] at hreq
            simp at hreq
        | ok gQ =>
            rw [hq] at hreq
            simp only [] at hreq
            have hQ := queueRecalc_genKeep gE child gQ hq
            by_cases hnn : (nec && decide (checkObservedRaw (gE.node ctx.node)
                ≠ ObservedState.unnecessary)) = true
            · rw [if_pos hnn] at hreq
              simp only [Except.ok.injEq, Prod.mk.injEq] at hreq
              obtain ⟨h1, _, _⟩ := hreq
              subst h1
              exact GenKeep_trans _ _ _ (GenKeep_trans _ _ _ hE hQ)
                (addNecessaryChild_genKeep gQ ctx.node child)
            · rw [if_neg hnn] at hreq
              simp only [Except.ok.injEq, Prod.mk.injEq] at hreq
              obtain ⟨h1, _, _⟩ := hreq
              subst h1
              exact GenKeep_trans _ _ _ hE hQ
      · rw [if_neg hready] at hreq
        by_cases hai2 : (!hai) = true
        · rw [if_pos hai2] at hreq
          simp only [Except.ok.injEq, Prod.mk.injEq] at hreq
          obtain ⟨h1, _, _⟩ := hreq
          subst h1
          exact hE
        · rw [if_neg hai2] at hreq
          by_cases hnn : (nec && decide (checkObservedRaw (gE.node ctx.node)
              ≠ ObservedState.unnecessary)) = true
          · rw [if_pos hnn] at hreq
            simp only [Except.ok.injEq, Prod.mk.injEq] at hreq
            obtain ⟨h1, _, _⟩ := hreq
            subst h1
            exact GenKeep_trans _ _ _ hE (GenKeep_trans _ _ _
              (addCleanParent_genKeep gE child ctx.node)
              (addNecessaryChild_genKeep _ ctx.node child))
          · rw [if_neg hnn] at hreq
            simp only [Except.ok.injEq, Prod.mk.injEq] at hreq
            obtain ⟨h1, _, _⟩ := hreq
            subst h1
            exact GenKeep_trans _ _ _ hE
              (addCleanParent_genKeep gE child ctx.node)

theorem markDirty0_genKeep : ∀ (fuel : Nat) (g : Graph) (next : Nat)
    (g2 : Graph), markDirty0 g next fuel = .ok g2 → GenKeep g g2 := by
  intro fuel
  induction fuel with
  | zero =>
      intro g next g2 h
      simp [markDirty0] at h
  | succ fuel ih =>
      intro g next g2 h
      simp only [markDirty0] at h
      split at h
      · exact queueRecalc_genKeep _ _ _ h
      · split at h
        · refine GenKeep_trans _ _ _
            (GenKeep_trans _ _ _ (needsRecalc_genKeep g next)
              (drainCleanParents_genKeep _ next))
            (GenKeep_foldlM _ ?_ _ _ _ h)
          intro gg p gg2 hf
          cases hcmp : (gg.node p).comp with
          | none =>
              rw [hcmp] at hf
              obtain rfl := Except.ok.inj hf
              exact GenKeep_refl gg
          | some c =>
              rw [hcmp] at hf
              simp only [] at hf
              cases hmd : compMarkDirty c with
              | error e =>
                  rw [hmd] at hf
                  simp at hf
              | ok c2 =>
                  rw [hmd] at hf
                  exact GenKeep_trans _ _ _ (setComp_genKeep gg p c2)
                    (ih _ _ _ hf)
        · obtain rfl := Except.ok.inj h
          exact GenKeep_refl g

theorem markDirty_genKeep (g : Graph) (node : Nat) (skipSelf : Bool)
    (fuel : Nat) (g2 : Graph) (h : markDirty g node skipSelf fuel = .ok g2) :
    GenKeep g g2 := by
  unfold markDirty at h
  split at h
  · refine GenKeep_trans _ _ _ (drainCleanParents_genKeep g node)
      (GenKeep_foldlM _ ?_ _ _ _ h)
    intro gg p gg2 hf
    cases hcmp : (gg.node p).comp with
    | none =>
        rw [hcmp] at hf
        simp at hf
    | some c =>
        rw [hcmp] at hf
        simp only [] at hf
        cases hmd : compMarkDirty c with
        | error e =>
            rw [hmd] at hf
            simp at hf
        | ok c2 =>
            rw [hmd] at hf
            exact GenKeep_trans _ _ _ (setComp_genKeep gg p c2)
              (markDirty0_genKeep _ _ _ _ hf)
  · exact markDirty0_genKeep _ _ _ _ h

theorem updateNecessaryChildren_genKeep : ∀ (fuel : Nat) (g : Graph)
    (node : Nat) (g2 : Graph),
    updateNecessaryChildren g node fuel = .ok g2 → GenKeep g g2 := by
  intro fuel
  induction fuel with
  | zero =>
      intro g node g2 h
      simp [updateNecessaryChildren] at h
  | succ fuel ih =>
      intro g node g2 h
      simp only [updateNecessaryChildren] at h
      split at h
      · obtain rfl := Except.ok.inj h
        exact GenKeep_refl g
      · exact GenKeep_trans _ _ _ (drainNecessaryChildren_genKeep g node)
          (GenKeep_foldlM _ (fun gg x gg2 hf => ih _ _ _ hf) _ _ _ h)

theorem pollUpdated_genKeep (g : Graph) (ctx : Ctx) (fuel : Nat)
    (g2 : Graph) (ctx2 : Ctx) (po : Poll)
    (h : pollUpdated g ctx fuel = .ok (g2, ctx2, po)) : GenKeep g g2 := by
  unfold pollUpdated at h
  cases hc : (g.node ctx.node).comp with
  | none =>
      rw [hc] at h
      simp at h
  | some comp =>
    rw [hc] at h
    cases comp with
    | varAnchor shared val =>
        simp only [Except.ok.injEq, Prod.mk.injEq] at h
        obtain ⟨h1, _, _⟩ := h
        subst h1
        exact setComp_genKeep g ctx.node _
    | constant v fp =>
        simp only [Except.ok.injEq, Prod.mk.injEq] at h
        obtain ⟨h1, _, _⟩ := h
        subst h1
        exact setComp_genKeep g ctx.node _
    | cutoff input f =>
        simp only [] at h
        cases hr : request g ctx input true fuel with
        | error e =>
            rw [hr] at h
            simp at h
        | ok tr =>
          obtain ⟨gR, ctxR, pR⟩ := tr
          rw [hr] at h
          simp only [] at h
          have hReq := request_genKeep g ctx input true fuel gR ctxR pR hr
          by_cases hp : pR ≠ Poll.updated
          · rw [if_pos hp] at h
            simp only [Except.ok.injEq, Prod.mk.injEq] at h
            obtain ⟨h1, _, _⟩ := h
            subst h1
            exact hReq
          · rw [if_neg hp] at h
            cases hg : ctxGet gR input fuel with
            | error e =>
                rw [hg] at h
                simp at h
            | ok v =>
                rw [hg] at h
                simp only [Except.ok.injEq, Prod.mk.injEq] at h
                obtain ⟨h1, _, _⟩ := h
                subst h1
                exact hReq
    | map1 input f out stale =>
        simp only [] at h
        by_cases h0 : (!stale && out.isSome) = true
        · rw [if_pos h0] at h
          simp only [Except.ok.injEq, Prod.mk.injEq] at h
          obtain ⟨h1, _, _⟩ := h
          subst h1
          exact GenKeep_refl g
        · rw [if_neg h0] at h
          cases hr : request g ctx input true fuel with
          | error e =>
              rw [hr] at h
              simp at h
          | ok tr =>
            obtain ⟨gR, ctxR, pR⟩ := tr
            rw [hr] at h
            simp only [] at h
            have hReq := request_genKeep g ctx input true fuel gR ctxR pR hr
            cases pR with
            | pending =>
                simp only [Except.ok.injEq, Prod.mk.injEq] at h
                obtain ⟨h1, _, _⟩ := h
                subst h1
                exact hReq
            | updated =>
                simp only [] at h
                rw [if_pos (by simp : (out.isNone || decide True) = true)] at h
                cases hg : ctxGet (gR.setComp ctxR.node (.map1 input f out false))
                    input fuel with
                | error e =>
                    rw [hg] at h
                    simp at h
                | ok v =>
                    rw [hg] at h
                    simp only [] at h
                    by_cases h3 : (some (f v) ≠ out)
                    · rw [if_pos h3] at h
                      simp only [Except.ok.injEq, Prod.mk.injEq] at h
                      obtain ⟨h1, _, _⟩ := h
                      subst h1
                      exact GenKeep_trans _ _ _ hReq (GenKeep_trans _ _ _
                        (setComp_genKeep gR ctxR.node _)
                        (setComp_genKeep _ ctxR.node _))
                    · rw [if_neg h3] at h
                      simp only [Except.ok.injEq, Prod.mk.injEq] at h
                      obtain ⟨h1, _, _⟩ := h
                      subst h1
                      exact GenKeep_trans _ _ _ hReq
                        (setComp_genKeep gR ctxR.node _)
            | unchanged =>
                simp only [] at h
                split at h
                · cases hg : ctxGet (gR.setComp ctxR.node (.map1 input f out false))
                      input fuel with
                  | error e =>
                      rw [hg] at h
                      simp at h
                  | ok v =>
                      rw [hg] at h
                      simp only [] at h
                      by_cases h3 : (some (f v) ≠ out)
                      · rw [if_pos h3] at h
                        simp only [Except.ok.injEq, Prod.mk.injEq] at h
                        obtain ⟨h1, _, _⟩ := h
                        subst h1
                        exact GenKeep_trans _ _ _ hReq (GenKeep_trans _ _ _
                          (setComp_genKeep gR ctxR.node _)
                          (setComp_genKeep _ ctxR.node _))
                      · rw [if_neg h3] at h
                        simp only [Except.ok.injEq, Prod.mk.injEq] at h
                        obtain ⟨h1, _, _⟩ := h
                        subst h1
                        exact GenKeep_trans _ _ _ hReq
                          (setComp_genKeep gR ctxR.node _)
                · simp only [Except.ok.injEq, Prod.mk.injEq] at h
                  obtain ⟨h1, _, _⟩ := h
                  subst h1
                  exact GenKeep_trans _ _ _ hReq
                    (setComp_genKeep gR ctxR.node _)

theorem insert_inv (g : Graph) (c : Comp) (gen : Nat)
    (hinv : GenInvG g) (hb : GenBoundG g gen) :
    GenInvG (g.insert c).1 ∧ GenBoundG (g.insert c).1 gen := by
  unfold Graph.insert
  cases hf : g.freeList with
  | cons i rest =>
      simp only []
      constructor
      · intro j hj
        by_cases hji : j = i
        · subst hji
          rw [node_modifyNode_self]
          rfl
        · rw [node_modifyNode_ne _ _ _ _ hji]
          exact hinv j hj
      · refine ⟨hb.1, fun j hj => ?_⟩
        by_cases hji : j = i
        · subst hji
          rw [node_modifyNode_self]
          exact ⟨rfl, rfl⟩
        · rw [node_modifyNode_ne _ _ _ _ hji]
          exact hb.2 j hj
  | nil =>
      simp only []
      constructor
      · intro j hj
        by_cases hji : j = g.len
        · subst hji
          rw [node_modifyNode_self]
          rfl
        · rw [node_modifyNode_ne _ _ _ _ hji]
          exact hinv j (by
            have : j < g.len + 1 := hj
            omega)
      · refine ⟨hb.1, fun j hj => ?_⟩
        by_cases hji : j = g.len
        · subst hji
          rw [node_modifyNode_self]
          exact ⟨rfl, rfl⟩
        · rw [node_modifyNode_ne _ _ _ _ hji]
          exact hb.2 j (by
            have : j < g.len + 1 := hj
            omega)

theorem recalculate_inv (e : Engine) (node fuel : Nat) (e2 : Engine)
    (b : Bool) (h : recalculate e node fuel = .ok (e2, b))
    (hinv : GenInvG e.graph) (hb : GenBoundG e.graph e.generation) :
    GenInvG e2.graph ∧ GenBoundG e2.graph e2.generation ∧
      e2.generation = e.generation := by
  unfold recalculate at h
  cases hp : pollUpdated e.graph ⟨node, false⟩ fuel with
  | error err =>
      rw [hp] at h
      simp at h
  | ok tr =>
    obtain ⟨g, ctx, poll⟩ := tr
    rw [hp] at h
    have hK := pollUpdated_genKeep e.graph ⟨node, false⟩ fuel g ctx poll hp
    cases poll with
    | pending =>
        simp only [] at h
        split at h
        · simp only [Except.ok.injEq, Prod.mk.injEq] at h
          obtain ⟨h1, h2⟩ := h
          subst h1
          exact ⟨genInvG_of_keep _ _ hK hinv,
            genBoundG_of_keep _ _ _ hK hb, rfl⟩
        · simp at h
    | updated =>
        simp only [] at h
        cases hmd : markDirty g node true fuel with
        | error err =>
            rw [hmd] at h
            simp at h
        | ok gM =>
          rw [hmd] at h
          simp only [Except.ok.injEq, Prod.mk.injEq] at h
          obtain ⟨h1, h2⟩ := h
          subst h1
          have hKM : GenKeep e.graph gM :=
            GenKeep_trans _ _ _ hK (markDirty_genKeep g node true fuel gM hmd)
          refine ⟨?_, ⟨hb.1, ?_⟩, rfl⟩
          · intro j hj
            by_cases hjn : j = node
            · subst hjn
              rw [node_modifyNode_self]
              simp [optGenLE]
            · rw [node_modifyNode_ne _ _ _ _ hjn]
              have hj2 : j < gM.len := hj
              rw [(hKM.2 j).1, (hKM.2 j).2]
              exact hinv j (by rw [← hKM.1]; exact hj2)
          · intro j hj
            by_cases hjn : j = node
            · subst hjn
              rw [node_modifyNode_self]
              constructor <;> simp [optGenLE]
            · rw [node_modifyNode_ne _ _ _ _ hjn]
              have hj2 : j < gM.len := hj
              rw [(hKM.2 j).1, (hKM.2 j).2]
              exact hb.2 j (by rw [← hKM.1]; exact hj2)
    | unchanged =>
        simp only [] at h
        simp only [Except.ok.injEq, Prod.mk.injEq] at h
        obtain ⟨h1, h2⟩ := h
        subst h1
        refine ⟨?_, ⟨hb.1, ?_⟩, rfl⟩
        · intro j hj
          by_cases hjn : j = node
          · subst hjn
            rw [node_modifyNode_self]
            have hn2 : j < g.len := hj
            show optGenLE (g.node j).lastUpdate (some e.generation) = true
            rw [(hK.2 j).1]
            exact (hb.2 j (by rw [← hK.1]; exact hn2)).1
          · rw [node_modifyNode_ne _ _ _ _ hjn]
            have hj2 : j < g.len := hj
            rw [(hK.2 j).1, (hK.2 j).2]
            exact hinv j (by rw [← hK.1]; exact hj2)
        · intro j hj
          by_cases hjn : j = node
          · subst hjn
            rw [node_modifyNode_self]
            have hn2 : j < g.len := hj
            refine ⟨?_, by simp [optGenLE]⟩
            show optGenLE (g.node j).lastUpdate (some e.generation) = true
            rw [(hK.2 j).1]
            exact (hb.2 j (by rw [← hK.1]; exact hn2)).1
          · rw [node_modifyNode_ne _ _ _ _ hjn]
            have hj2 : j < g.len := hj
            rw [(hK.2 j).1, (hK.2 j).2]
            exact hb.2 j (by rw [← hK.1]; exact hj2)

theorem stabilize0_inv : ∀ (fuel : Nat) (e e2 : Engine),
    stabilize0 e fuel = .ok e2 → GenInvG e.graph →
    GenBoundG e.graph e.generation →
    GenInvG e2.graph ∧ GenBoundG e2.graph e2.generation ∧
      e2.generation = e.generation := by
  intro fuel
  induction fuel with
  | zero =>
      intro e e2 h
      simp [stabilize0] at h
  | succ fuel ih =>
      intro e e2 h hinv hb
      simp only [stabilize0] at h
      cases hpop : e.graph.recalcPopNext with
      | mk g onode =>
        rw [hpop] at h
        have hKpop : GenKeep e.graph g := by
          have := recalcPopNext_genKeep e.graph
          rw [hpop] at this
          exact this
        have hinvG : GenInvG g := genInvG_of_keep _ _ hKpop hinv
        have hbG : GenBoundG g e.generation := genBoundG_of_keep _ _ _ hKpop hb
        cases onode with
        | none =>
            simp only [Except.ok.injEq] at h
            subst h
            exact ⟨hinvG, hbG, rfl⟩
        | some pr =>
          obtain ⟨ht, node⟩ := pr
          simp only [] at h
          by_cases hh : (g.node node).height = ht
          · rw [if_pos hh] at h
            cases hrc : recalculate { e with graph := g } node fuel with
            | error err =>
                rw [hrc] at h
                simp at h
            | ok pr2 =>
              obtain ⟨eR, bR⟩ := pr2
              rw [hrc] at h
              have hR := recalculate_inv { e with graph := g } node fuel eR bR
                hrc hinvG hbG
              cases bR with
              | true =>
                  simp only [] at h
                  obtain ⟨i1, i2, i3⟩ := ih eR e2 h hR.1 hR.2.1
                  exact ⟨i1, i2, i3.trans hR.2.2⟩
              | false =>
                  simp only [] at h
                  cases hq : eR.graph.queueRecalc node with
                  | error err =>
                      rw [hq] at h
                      simp at h
                  | ok gQ =>
                      rw [hq] at h
                      have hKQ := queueRecalc_genKeep eR.graph node gQ hq
                      obtain ⟨i1, i2, i3⟩ := ih { eR with graph := gQ } e2 h
                        (genInvG_of_keep _ _ hKQ hR.1)
                        (genBoundG_of_keep _ _ _ hKQ hR.2.1)
                      exact ⟨i1, i2, i3.trans hR.2.2⟩
          · rw [if_neg hh] at h
            simp only [] at h
            cases hq : g.queueRecalc node with
            | error err =>
                rw [hq] at h
                simp at h
            | ok gQ =>
                rw [hq] at h
                have hKQ := queueRecalc_genKeep g node gQ hq
                exact ih { e with graph := gQ } e2 h
                  (genInvG_of_keep _ _ hKQ hinvG)
                  (genBoundG_of_keep _ _ _ hKQ hbG)

theorem updateDirtyMarks_keep (e : Engine) (fuel : Nat) (e2 : Engine)
    (h : updateDirtyMarks e fuel = .ok e2) :
    GenKeep e.graph e2.graph ∧ e2.generation = e.generation := by
  unfold updateDirtyMarks at h
  simp only [] at h
  have hP : GenKeep ({ e with dirtyMarks := [] } : Engine).graph e2.graph ∧
      e2.generation = ({ e with dirtyMarks := [] } : Engine).generation := by
    refine EngineKeep_foldlM
      (fun a b => GenKeep a.graph b.graph ∧ b.generation = a.generation)
      (fun a => ⟨GenKeep_refl _, rfl⟩)
      (fun a b c h1 h2 => ⟨GenKeep_trans _ _ _ h1.1 h2.1, h2.2.trans h1.2⟩)
      _ ?_ _ _ _ h
    intro ee k ee2 hf
    cases hk : ee.graph.get k with
    | none =>
        rw [hk] at hf
        simp at hf
    | some node =>
      rw [hk] at hf
      simp only [] at hf
      cases hmd : markDirty ee.graph node false fuel with
      | error err =>
          rw [hmd] at hf
          simp at hf
      | ok g =>
          rw [hmd] at hf
          simp only [Except.ok.injEq] at hf
          subst hf
          exact ⟨markDirty_genKeep _ _ _ _ _ hmd, rfl⟩
  exact hP

theorem stabilize_inv (e : Engine) (fuel : Nat) (e2 : Engine)
    (h : stabilize e fuel = .ok e2) (hinv : GenInvG e.graph)
    (hb : GenBoundG e.graph e.generation) :
    GenInvG e2.graph ∧ GenBoundG e2.graph e2.generation ∧
      e.generation ≤ e2.generation := by
  unfold stabilize at h
  cases hu : updateDirtyMarks e fuel with
  | error err =>
      rw [hu] at h
      simp at h
  | ok eU =>
    rw [hu] at h
    simp only [] at h
    obtain ⟨hKU, hgenU⟩ := updateDirtyMarks_keep e fuel eU hu
    cases hi : Generation.increment eU.generation with
    | none =>
        rw [hi] at h
        simp at h
    | some gen =>
      rw [hi] at h
      have hbU : GenBoundG eU.graph eU.generation := by
        rw [hgenU]
        exact genBoundG_of_keep _ _ _ hKU hb
      obtain ⟨hg1, hg2, hg3⟩ := increment_ok eU.generation gen hi
        (by rw [hgenU]; exact hb.1)
      have hbG : GenBoundG eU.graph gen := by
        refine ⟨hg2, fun j hj => ?_⟩
        obtain ⟨b1, b2⟩ := hbU.2 j hj
        exact ⟨optGenLE_mono _ _ _ b1 hg3, optGenLE_mono _ _ _ b2 hg3⟩
      obtain ⟨i1, i2, i3⟩ := stabilize0_inv fuel { eU with generation := gen }
        e2 h (genInvG_of_keep _ _ hKU hinv) hbG
      have hgen2 : e2.generation = gen := i3
      exact ⟨i1, i2, by omega⟩

theorem engineGet_inv (e : Engine) (k : NodeKey) (fuel : Nat) (e2 : Engine)
    (v : Int) (h : engineGet e k fuel = .ok (e2, v)) (hinv : GenInvG e.graph)
    (hb : GenBoundG e.graph e.generation) :
    GenInvG e2.graph ∧ GenBoundG e2.graph e2.generation ∧
      e.generation ≤ e2.generation := by
  unfold engineGet at h
  cases hs : stabilize e fuel with
  | error err =>
      rw [hs] at h
      simp at h
  | ok eS =>
    rw [hs] at h
    simp only [] at h
    obtain ⟨s1, s2, s3⟩ := stabilize_inv e fuel eS hs hinv hb
    cases hk : eS.graph.get k with
    | none =>
        rw [hk] at h
        simp at h
    | some node =>
      rw [hk] at h
      simp only [] at h
      by_cases hr : (eS.graph.node node).recalcState ≠ RecalcState.ready
      · rw [if_pos hr] at h
        cases hq : eS.graph.queueRecalc node with
        | error err =>
            rw [hq] at h
            simp at h
        | ok gQ =>
          rw [hq] at h
          simp only [] at h
          cases ha : stabilize0 { eS with graph := gQ } fuel with
          | error err =>
              rw [ha] at h
              simp at h
          | ok eA =>
            rw [ha] at h
            simp only [] at h
            have hKQ := queueRecalc_genKeep eS.graph node gQ hq
            obtain ⟨a1, a2, a3⟩ := stabilize0_inv fuel { eS with graph := gQ }
              eA ha (genInvG_of_keep _ _ hKQ s1) (genBoundG_of_keep _ _ _ hKQ s2)
            cases ho : compOutput eA.graph node fuel with
            | error err =>
                rw [ho] at h
                simp at h
            | ok vO =>
                rw [ho] at h
                simp only [Except.ok.injEq, Prod.mk.injEq] at h
                obtain ⟨h1, h2⟩ := h
                subst h1
                have ha3 : eA.generation = eS.generation := a3
                exact ⟨a1, a2, by omega⟩
      · rw [if_neg hr] at h
        simp only [] at h
        cases ho : compOutput eS.graph node fuel with
        | error err =>
            rw [ho] at h
            simp at h
        | ok vO =>
            rw [ho] at h
            simp only [Except.ok.injEq, Prod.mk.injEq] at h
            obtain ⟨h1, h2⟩ := h
            subst h1
            exact ⟨s1, s2, s3⟩

theorem varSet_keep (e : Engine) (n : Nat) (v : Int) :
    GenKeep e.graph (varSet e n v).graph ∧
      (varSet e n v).generation = e.generation := by
  unfold varSet
  split
  · exact ⟨setComp_genKeep _ _ _, rfl⟩
  · exact ⟨GenKeep_refl _, rfl⟩

theorem markObserved_keep (e : Engine) (k : NodeKey) (e2 : Engine)
    (h : markObserved e k = .ok e2) :
    GenKeep e.graph e2.graph ∧ e2.generation = e.generation := by
  unfold markObserved at h
  cases hk : e.graph.get k with
  | none =>
      rw [hk] at h
      simp at h
  | some node =>
    rw [hk] at h
    simp only [] at h
    have hM : GenKeep e.graph
        (e.graph.modifyNode node fun n => { n with observed := true }) :=
      GenKeep_modify _ _ _ rfl rfl
    split at h
    · cases hq : (e.graph.modifyNode node
          fun n => { n with observed := true }).queueRecalc node with
      | error err =>
          rw [hq] at h
          simp at h
      | ok gQ =>
          rw [hq] at h
          simp only [Except.ok.injEq] at h
          subst h
          exact ⟨GenKeep_trans _ _ _ hM (queueRecalc_genKeep _ _ _ hq), rfl⟩
    · simp only [Except.ok.injEq] at h
      subst h
      exact ⟨hM, rfl⟩

theorem markUnobserved_keep (e : Engine) (k : NodeKey) (fuel : Nat)
    (e2 : Engine) (h : markUnobserved e k fuel = .ok e2) :
    GenKeep e.graph e2.graph ∧ e2.generation = e.generation := by
  unfold markUnobserved at h
  cases hk : e.graph.get k with
  | none =>
      rw [hk] at h
      simp at h
  | some node =>
    rw [hk] at h
    simp only [] at h
    cases hu : updateNecessaryChildren (e.graph.modifyNode node
        fun n => { n with observed := false }) node fuel with
    | error err =>
        rw [hu] at h
        simp at h
    | ok gU =>
        rw [hu] at h
        simp only [Except.ok.injEq] at h
        subst h
        exact ⟨GenKeep_trans _ _ _ (GenKeep_modify _ _ _ rfl rfl)
          (updateNecessaryChildren_genKeep _ _ _ _ hu), rfl⟩

/-- C8: every public engine operation preserves the generation-stamp
invariant — for each node, last_update ≤ last_ready with an unset stamp
preceding every set one, and both stamps bounded by the engine's current
generation; moreover recalculate stamps exactly as claimed: an Updated poll
sets both last_update and last_ready to the current generation, an
Unchanged poll advances only last_ready and leaves last_update where it
was. -/
theorem generation_stamp_invariant :
    (∀ (e : Engine) (op : EngineOp) (fuel : Nat) (e2 : Engine),
        GenInvG e.graph → GenBoundG e.graph e.generation →
        applyOp e op fuel = .ok e2 →
        GenInvG e2.graph ∧ GenBoundG e2.graph e2.generation) ∧
    (∀ (e : Engine) (node fuel : Nat) (g : Graph) (ctx : Ctx) (e2 : Engine)
        (b : Bool),
        pollUpdated e.graph ⟨node, false⟩ fuel = .ok (g, ctx, Poll.updated) →
        recalculate e node fuel = .ok (e2, b) →
        (e2.graph.node node).lastUpdate = some e.generation ∧
        (e2.graph.node node).lastReady = some e.generation) ∧
    (∀ (e : Engine) (node fuel : Nat) (g : Graph) (ctx : Ctx) (e2 : Engine)
        (b : Bool),
        pollUpdated e.graph ⟨node, false⟩ fuel = .ok (g, ctx, Poll.unchanged) →
        recalculate e node fuel = .ok (e2, b) →
        (e2.graph.node node).lastReady = some e.generation ∧
        (e2.graph.node node).lastUpdate = (e.graph.node node).lastUpdate) := by
  refine ⟨?_, ?_, ?_⟩
  · intro e op fuel e2 hinv hb h
    cases op with
    | getOp k =>
        simp only [applyOp] at h
        cases hg : engineGet e k fuel with
        | error err =>
            rw [hg] at h
            simp at h
        | ok pr =>
            obtain ⟨eG, v⟩ := pr
            rw [hg] at h
            simp only [Except.ok.injEq] at h
            subst h
            obtain ⟨i1, i2, _⟩ := engineGet_inv e k fuel eG v hg hinv hb
            exact ⟨i1, i2⟩
    | stabilizeOp =>
        simp only [applyOp] at h
        obtain ⟨i1, i2, _⟩ := stabilize_inv e fuel e2 h hinv hb
        exact ⟨i1, i2⟩
    | varSetOp n v =>
        simp only [applyOp, Except.ok.injEq] at h
        subst h
        obtain ⟨hK, hgen⟩ := varSet_keep e n v
        rw [hgen]
        exact ⟨genInvG_of_keep _ _ hK hinv, genBoundG_of_keep _ _ _ hK hb⟩
    | markObservedOp k =>
        simp only [applyOp] at h
        obtain ⟨hK, hgen⟩ := markObserved_keep e k e2 h
        rw [hgen]
        exact ⟨genInvG_of_keep _ _ hK hinv, genBoundG_of_keep _ _ _ hK hb⟩
    | markUnobservedOp k =>
        simp only [applyOp] at h
        obtain ⟨hK, hgen⟩ := markUnobserved_keep e k fuel e2 h
        rw [hgen]
        exact ⟨genInvG_of_keep _ _ hK hinv, genBoundG_of_keep _ _ _ hK hb⟩
    | mountOp c =>
        simp only [applyOp, Except.ok.injEq] at h
        subst h
        exact insert_inv e.graph c e.generation hinv hb
    | handleCloneOp k =>
        simp only [applyOp, Except.ok.injEq] at h
        subst h
        exact ⟨genInvG_of_keep _ _ (handleClone_genKeep e.graph k) hinv,
          genBoundG_of_keep _ _ _ (handleClone_genKeep e.graph k) hb⟩
    | handleDropOp k =>
        simp only [applyOp, Except.ok.injEq] at h
        subst h
        exact ⟨genInvG_of_keep _ _ (handleDrop_genKeep e.graph k) hinv,
          genBoundG_of_keep _ _ _ (handleDrop_genKeep e.graph k) hb⟩
  · intro e node fuel g ctx e2 b hp h
    unfold recalculate at h
    rw [hp] at h
    simp only [] at h
    cases hmd : markDirty g node true fuel with
    | error err =>
        rw [hmd] at h
        simp at h
    | ok gM =>
        rw [hmd] at h
        simp only [Except.ok.injEq, Prod.mk.injEq] at h
        obtain ⟨h1, h2⟩ := h
        subst h1
        rw [node_modifyNode_self]
        exact ⟨rfl, rfl⟩
  · intro e node fuel g ctx e2 b hp h
    unfold recalculate at h
    rw [hp] at h
    simp only [Except.ok.injEq, Prod.mk.injEq] at h
    obtain ⟨h1, h2⟩ := h
    subst h1
    rw [node_modifyNode_self]
    have hK := pollUpdated_genKeep e.graph ⟨node, false⟩ fuel g ctx
      Poll.unchanged hp
    exact ⟨rfl, (hK.2 node).1⟩

/-- Concrete witness for the generation-stamp invariant: one stabilize of
the three-node scenario engine preserves it. -/
theorem generation_stamp_invariant_witness :
    GenInvG c8StabResult.graph ∧
      GenBoundG c8StabResult.graph c8StabResult.generation :=
  generation_stamp_invariant.1 scenarioEngine .stabilizeOp 32 c8StabResult
    (by decide) (by decide) (by rfl)

end Anchors
